import Mathlib

/-!
# Verification of the WBS tree reordering and code-maintenance engine

Shallow embedding of the tree reordering core of the Project-Schedule
repository:

* `src/unnamed/part_005` — the move endpoint (`POST`) with its helpers
  `reorderNodes`, `generateWbsCode`, `updateWbsCodesRecursive`;
* `src/app/api/nodes/move/route.ts` — an earlier revision of the same
  endpoint (`legacyInsideOrderIdx` models its `inside` rank computation);
* `src/lib/tree-utils.ts` — `TreeUtils.buildTree`, `flattenTree`,
  `moveNodeLocally`.

The database is modelled as a list of node records; every `db.update`
statement of the source becomes a `List.map` that rewrites the rows whose
`id` matches, and loops over fetched row sets become folds over the fetched
list.  `ORDER BY order_idx` is modelled by a stable insertion sort on
`orderIdx`.  JavaScript truthiness tests on `parentId` (`parentId ? eq :
isNull`) are modelled by `canonParentKey`, which sends `some 0` to `none`.
Recursions of the source that walk parent chains or descendant sets are
given explicit fuel; the fuel is sized so that it never runs out on the
acyclic states the theorems quantify over.
-/

/-- One row of the `wbs_nodes` table (`src/db/schema.ts`), restricted to the
fields the reordering engine reads or writes. -/
structure Node where
  id : Nat
  parentId : Option Nat
  orderIdx : Int
  level : Int
  wbsCode : Option String
  updatedAt : Nat
deriving DecidableEq, Repr

/-- Comparison used by every `ORDER BY order_idx` in the source. -/
def ordLe (a b : Node) : Prop := a.orderIdx ≤ b.orderIdx

instance : DecidableRel ordLe := fun a b =>
  inferInstanceAs (Decidable (a.orderIdx ≤ b.orderIdx))

instance : IsTotal Node ordLe := ⟨fun a b => Int.le_total a.orderIdx b.orderIdx⟩

instance : IsTrans Node ordLe := ⟨fun _ _ _ hab hbc => le_trans hab hbc⟩

/-- `SELECT ... ORDER BY order_idx` (ascending): a stable sort on `orderIdx`. -/
def sortByOrderIdx (l : List Node) : List Node := List.insertionSort ordLe l

/-- The drizzle condition `parentId ? eq(wbsNodes.parentId, parentId) :
isNull(wbsNodes.parentId)`: JavaScript truthiness sends both `null` and `0`
to the `isNull` branch. -/
def canonParentKey : Option Nat → Option Nat
  | some 0 => none
  | x => x

/-- The sibling fetch `SELECT ... WHERE parentId ?/isNull ... ORDER BY
order_idx` shared by `reorderNodes` and `generateWbsCode`. -/
def siblingsOf (db : List Node) (pid : Option Nat) : List Node :=
  sortByOrderIdx (db.filter (fun n => decide (n.parentId = canonParentKey pid)))

/-- One iteration of the update loop of `reorderNodes`
(`src/unnamed/part_005` lines 97-105): `UPDATE ... SET order_idx = i,
updated_at = now() WHERE id = sid`. -/
def applyOrderUpdate (i : Nat) (now : Nat) (sid : Nat) (db : List Node) : List Node :=
  db.map (fun n => if n.id = sid then { n with orderIdx := Int.ofNat i, updatedAt := now } else n)

/-- `reorderNodes(parentId)` of `src/unnamed/part_005` lines 88-106: fetch
the siblings ordered by `orderIdx`, then rewrite their `orderIdx` to
consecutive indices, bumping `updatedAt`. -/
def reorderNodes (db : List Node) (pid : Option Nat) (now : Nat) : List Node :=
  (siblingsOf db pid).enum.foldl (fun d p => applyOrderUpdate p.1 now p.2.id d) db

/-- Position of the first element with the given `id` (the
`findIndex(s => s.id === ...)` idiom of the source). -/
def idIndex (l : List Node) (nid : Nat) : Option Nat :=
  match l with
  | [] => none
  | s :: rest => if s.id = nid then some 0 else (idIndex rest nid).map (· + 1)

/-- Pointwise form of a completed `reorderNodes` loop over sibling list
`sibs`: the row whose id occurs at position `i` of `sibs` gets `orderIdx i`
and a bumped `updatedAt`; other rows are untouched. -/
def reorderFun (sibs : List Node) (now : Nat) (n : Node) : Node :=
  match idIndex sibs n.id with
  | some i => { n with orderIdx := Int.ofNat i, updatedAt := now }
  | none => n

theorem nodup_ids_cons (s : Node) (rest : List Node)
    (hnd : ((s :: rest).map Node.id).Nodup) :
    (∀ x ∈ rest, x.id ≠ s.id) ∧ (rest.map Node.id).Nodup := by
  rw [List.map_cons, List.nodup_cons] at hnd
  refine ⟨fun x hx he => hnd.1 (he ▸ List.mem_map_of_mem Node.id hx), hnd.2⟩

theorem idIndex_eq_none (l : List Node) (nid : Nat) (h : ∀ s ∈ l, s.id ≠ nid) :
    idIndex l nid = none := by
  induction l with
  | nil => rfl
  | cons s rest ih =>
    simp only [idIndex]
    rw [if_neg (h s (by simp))]
    rw [ih (fun x hx => h x (by simp [hx]))]
    rfl

theorem idIndex_get (l : List Node) (hnd : (l.map Node.id).Nodup) :
    ∀ i (hi : i < l.length), idIndex l (l.get ⟨i, hi⟩).id = some i := by
  induction l with
  | nil => intro i hi; simp at hi
  | cons s rest ih =>
    have hcons := nodup_ids_cons s rest hnd
    intro i hi
    cases i with
    | zero => simp [idIndex]
    | succ j =>
      have hj : j < rest.length := by simpa using hi
      have hmem : rest.get ⟨j, hj⟩ ∈ rest := rest.get_mem j hj
      have hne : s.id ≠ (rest.get ⟨j, hj⟩).id :=
        fun he => hcons.1 _ hmem he.symm
      simp only [idIndex, List.get_cons_succ]
      rw [if_neg hne, ih hcons.2 j hj]
      rfl

theorem find?_self_of_nodup (l : List Node) (hnd : (l.map Node.id).Nodup)
    (x : Node) (hx : x ∈ l) :
    l.find? (fun n => decide (n.id = x.id)) = some x := by
  induction l with
  | nil => simp at hx
  | cons a rest ih =>
    have hcons := nodup_ids_cons a rest hnd
    by_cases hax : a.id = x.id
    · have hxa : x = a := by
        rcases List.mem_cons.mp hx with h | h
        · exact h
        · exact absurd (hax ▸ rfl) (fun he => hcons.1 x h he)
      subst hxa
      simp [List.find?]
    · have hxr : x ∈ rest := by
        rcases List.mem_cons.mp hx with h | h
        · exact absurd (h ▸ rfl) hax
        · exact h
      have := ih hcons.2 hxr
      simp only [List.find?]
      rw [decide_eq_false hax]
      exact this

theorem reorder_foldl_char (now : Nat) (sibs : List Node)
    (hnd : (sibs.map Node.id).Nodup) :
    ∀ (k : Nat) (db : List Node),
      (sibs.enumFrom k).foldl (fun d p => applyOrderUpdate p.1 now p.2.id d) db
        = db.map (fun n =>
            match idIndex sibs n.id with
            | some i => { n with orderIdx := Int.ofNat (k + i), updatedAt := now }
            | none => n) := by
  induction sibs with
  | nil =>
    intro k db
    simp [idIndex, List.enumFrom]
  | cons s rest ih =>
    have hcons := nodup_ids_cons s rest hnd
    intro k db
    simp only [List.enumFrom, List.foldl_cons]
    rw [ih hcons.2 (k + 1) (applyOrderUpdate k now s.id db)]
    unfold applyOrderUpdate
    rw [List.map_map]
    apply List.map_congr_left
    intro n _
    simp only [Function.comp]
    by_cases hns : n.id = s.id
    · have hnone : idIndex rest s.id = none :=
        idIndex_eq_none rest s.id hcons.1
      simp [idIndex, hns, hnone]
    · rw [if_neg hns]
      simp only [idIndex]
      rw [if_neg (fun h => hns h.symm)]
      cases hfind : idIndex rest n.id with
      | none => simp [hfind]
      | some i =>
        have hk : k + 1 + i = k + (i + 1) := by omega
        simp [hfind, hk]

theorem siblingsOf_perm (db : List Node) (pid : Option Nat) :
    List.Perm (siblingsOf db pid)
      (db.filter (fun n => decide (n.parentId = canonParentKey pid))) :=
  List.perm_insertionSort ordLe _

theorem siblingsOf_nodup_ids (db : List Node) (pid : Option Nat)
    (hids : (db.map Node.id).Nodup) :
    ((siblingsOf db pid).map Node.id).Nodup := by
  have hsub : (db.filter (fun n => decide (n.parentId = canonParentKey pid))).Sublist db :=
    List.filter_sublist db
  have hnd : ((db.filter (fun n => decide (n.parentId = canonParentKey pid))).map Node.id).Nodup :=
    (hsub.map Node.id).nodup hids
  exact ((siblingsOf_perm db pid).map Node.id).nodup_iff.mpr hnd

theorem siblingsOf_subset (db : List Node) (pid : Option Nat) :
    ∀ x ∈ siblingsOf db pid, x ∈ db := by
  intro x hx
  have := (siblingsOf_perm db pid).mem_iff.mp hx
  exact List.mem_of_mem_filter this

theorem reorderNodes_eq_map (db : List Node) (pid : Option Nat) (now : Nat)
    (hids : (db.map Node.id).Nodup) :
    reorderNodes db pid now = db.map (reorderFun (siblingsOf db pid) now) := by
  unfold reorderNodes
  have h := reorder_foldl_char now (siblingsOf db pid)
    (siblingsOf_nodup_ids db pid hids) 0 db
  rw [show (siblingsOf db pid).enum = (siblingsOf db pid).enumFrom 0 from rfl]
  rw [h]
  apply List.map_congr_left
  intro n _
  unfold reorderFun
  cases hfind : idIndex (siblingsOf db pid) n.id with
  | none => rfl
  | some i => simp

theorem reorderFun_parentId (sibs : List Node) (now : Nat) (n : Node) :
    (reorderFun sibs now n).parentId = n.parentId := by
  unfold reorderFun
  cases idIndex sibs n.id <;> rfl

theorem reorderFun_id (sibs : List Node) (now : Nat) (n : Node) :
    (reorderFun sibs now n).id = n.id := by
  unfold reorderFun
  cases idIndex sibs n.id <;> rfl

theorem siblings_map_reorder_orderIdx (sibs : List Node) (now : Nat)
    (hnd : (sibs.map Node.id).Nodup) :
    sibs.map (fun s => (reorderFun sibs now s).orderIdx)
      = (List.range sibs.length).map Int.ofNat := by
  apply List.ext_get
  · simp
  · intro i h1 h2
    have hi : i < sibs.length := by simpa using h1
    simp only [List.get_map]
    unfold reorderFun
    rw [idIndex_get sibs hnd i hi]
    simp [List.get_range]

/-- **C4.** For every `parentId` (including `null`) and every starting state
of its sibling group, after `reorderNodes` completes the `orderIdx` values of
the rows sharing that `parentId` are exactly `{0, 1, ..., n-1}`, assigned in
ascending order of their previous `orderIdx` (position `i` of the previously
sorted sibling list receives `orderIdx i`), and every sibling's `updatedAt`
is bumped to the update time.  Row ids are unique (primary key), and the
parent key is not the impossible id `0`. -/
theorem reorderNodes_spec (db : List Node) (pid : Option Nat) (now : Nat)
    (hids : (db.map Node.id).Nodup) (hpid : pid ≠ some 0) :
    List.Perm (((reorderNodes db pid now).filter
        (fun n => decide (n.parentId = pid))).map Node.orderIdx)
      ((List.range (siblingsOf db pid).length).map Int.ofNat)
    ∧ ∀ i (hi : i < (siblingsOf db pid).length),
        (reorderNodes db pid now).find?
            (fun n => decide (n.id = ((siblingsOf db pid).get ⟨i, hi⟩).id))
          = some { (siblingsOf db pid).get ⟨i, hi⟩ with
                    orderIdx := Int.ofNat i, updatedAt := now } := by
  have hcanon : canonParentKey pid = pid := by
    cases pid with
    | none => rfl
    | some p =>
      cases p with
      | zero => exact absurd rfl hpid
      | succ q => rfl
  have hmap := reorderNodes_eq_map db pid now hids
  have hsnd := siblingsOf_nodup_ids db pid hids
  constructor
  · rw [hmap]
    rw [List.filter_map]
    have hpred : ((fun n => decide (n.parentId = pid)) ∘ reorderFun (siblingsOf db pid) now)
        = (fun n => decide (n.parentId = pid)) := by
      funext n
      simp [Function.comp, reorderFun_parentId]
    rw [hpred, List.map_map]
    have hperm : List.Perm (db.filter (fun n => decide (n.parentId = pid)))
        (siblingsOf db pid) := by
      have := (siblingsOf_perm db pid).symm
      rwa [hcanon] at this
    refine (hperm.map _).trans ?_
    rw [show (Node.orderIdx ∘ reorderFun (siblingsOf db pid) now)
        = (fun s => (reorderFun (siblingsOf db pid) now s).orderIdx) from rfl]
    rw [siblings_map_reorder_orderIdx _ now hsnd]
  · intro i hi
    rw [hmap]
    rw [List.find?_map]
    have hpred : ((fun n => decide (n.id = ((siblingsOf db pid).get ⟨i, hi⟩).id))
          ∘ reorderFun (siblingsOf db pid) now)
        = (fun n => decide (n.id = ((siblingsOf db pid).get ⟨i, hi⟩).id)) := by
      funext n
      simp [Function.comp, reorderFun_id]
    rw [hpred]
    have hmem : (siblingsOf db pid).get ⟨i, hi⟩ ∈ siblingsOf db pid :=
      (siblingsOf db pid).get_mem i hi
    rw [find?_self_of_nodup db hids _ (siblingsOf_subset db pid _ hmem)]
    have hfun : reorderFun (siblingsOf db pid) now ((siblingsOf db pid).get ⟨i, hi⟩)
        = { (siblingsOf db pid).get ⟨i, hi⟩ with orderIdx := Int.ofNat i, updatedAt := now } := by
      unfold reorderFun
      rw [idIndex_get (siblingsOf db pid) hsnd i hi]
    rw [Option.map_some', hfun]

/-- Witness for C4 at a concrete state: two root-level rows with orderIdx 5
and 3 get reindexed to 0, 1 in ascending order of the old orderIdx. -/
theorem reorderNodes_spec_witness :
    (([⟨1, none, 5, 0, none, 0⟩, ⟨2, none, 3, 0, none, 0⟩] : List Node).map Node.id).Nodup
    ∧ (none : Option Nat) ≠ some 0
    ∧ (List.Perm (((reorderNodes [⟨1, none, 5, 0, none, 0⟩, ⟨2, none, 3, 0, none, 0⟩] none 7).filter
          (fun n => decide (n.parentId = none))).map Node.orderIdx)
        ((List.range (siblingsOf [⟨1, none, 5, 0, none, 0⟩, ⟨2, none, 3, 0, none, 0⟩] none).length).map Int.ofNat)
      ∧ ∀ i (hi : i < (siblingsOf [⟨1, none, 5, 0, none, 0⟩, ⟨2, none, 3, 0, none, 0⟩] none).length),
          (reorderNodes [⟨1, none, 5, 0, none, 0⟩, ⟨2, none, 3, 0, none, 0⟩] none 7).find?
              (fun n => decide (n.id = ((siblingsOf [⟨1, none, 5, 0, none, 0⟩, ⟨2, none, 3, 0, none, 0⟩] none).get ⟨i, hi⟩).id))
            = some { (siblingsOf [⟨1, none, 5, 0, none, 0⟩, ⟨2, none, 3, 0, none, 0⟩] none).get ⟨i, hi⟩ with
                      orderIdx := Int.ofNat i, updatedAt := 7 }) :=
  ⟨by decide, by decide,
    reorderNodes_spec [⟨1, none, 5, 0, none, 0⟩, ⟨2, none, 3, 0, none, 0⟩] none 7
      (by decide) (by decide)⟩

/-! ## Hierarchical code generation (`generateWbsCode`)

`generateWbsCode` appears identically in `src/app/api/nodes/route.ts`,
`src/app/api/nodes/move/route.ts` and `src/unnamed/part_005` (lines 6-59):
it walks the parent chain up to the root collecting the path, then for each
path node fetches its ordered sibling group and emits the 1-indexed position
of the node inside it, joining the pieces with ".". -/

/-- `SELECT ... WHERE id = i LIMIT 1`. -/
def lookupId (db : List Node) (i : Nat) : Option Node :=
  db.find? (fun n => decide (n.id = i))

/-- The `while (currentNode)` loop of `generateWbsCode` (lines 20-33),
which unshifts each node and moves to its parent: it produces the path from
the root (or from the first node with no resolvable parent) down to the
start node.  `if (currentNode.parentId)` is JavaScript truthiness, false for
both `null` and `0`.  The loop has no bound in the source; the fuel is sized
by the caller so that it covers every acyclic state. -/
def buildPath (db : List Node) : Nat → Node → List Node
  | 0, cur => [cur]
  | fuel + 1, cur =>
    match cur.parentId with
    | none => [cur]
    | some p =>
      if p = 0 then [cur]
      else
        match lookupId db p with
        | some par => buildPath db fuel par ++ [cur]
        | none => [cur]

/-- One entry of the `codes` array (lines 36-52): the 1-indexed
`findIndex` of the path node inside its ordered sibling group, `"0"` when
`findIndex` returns `-1`. -/
def levelCode (db : List Node) (levelNode : Node) : String :=
  match idIndex (siblingsOf db levelNode.parentId) levelNode.id with
  | some i => toString (i + 1)
  | none => "0"

/-- `generateWbsCode(nodeId)`: `null` when the node does not exist,
otherwise the dot-joined per-level codes. -/
def generateWbsCode (db : List Node) (nodeId : Nat) : Option String :=
  match lookupId db nodeId with
  | none => none
  | some node =>
    some (String.intercalate "." ((buildPath db db.length node).map (levelCode db)))

/-- Rank stated the way the spec states it: one plus the number of nodes of
the same sibling group whose `orderIdx` is strictly smaller. -/
def specRank (db : List Node) (m : Node) : Nat :=
  (db.filter (fun s => decide (s.parentId = m.parentId ∧ s.orderIdx < m.orderIdx))).length + 1

theorem countP_lt_of_witness {α : Type} (p r : α → Bool) (l : List α)
    (hsub : ∀ x ∈ l, p x = true → r x = true) (y : α) (hy : y ∈ l)
    (hry : r y = true) (hpy : ¬ p y = true) :
    List.countP p l < List.countP r l := by
  induction l with
  | nil => simp at hy
  | cons a t ih =>
    rcases List.mem_cons.mp hy with h | h
    · rw [List.countP_cons, List.countP_cons]
      have h1 : (if p a then 1 else 0) = 0 := by rw [← h]; simp [hpy]
      have h2 : (if r a then 1 else 0) = 1 := by rw [← h]; simp [hry]
      rw [h1, h2]
      have hmono := List.countP_mono_left (l := t) (p := p) (q := r)
        (fun x hx hpx => hsub x (List.mem_cons_of_mem a hx) hpx)
      omega
    · have ht := ih (fun x hx hpx => hsub x (List.mem_cons_of_mem a hx) hpx) h
      rw [List.countP_cons, List.countP_cons]
      by_cases hpa : p a = true
      · have hra := hsub a (List.mem_cons_self a t) hpa
        rw [if_pos hpa, if_pos hra]
        omega
      · rw [if_neg hpa]
        have : (if r a then 1 else 0) ≤ 1 := by split <;> omega
        omega

/-- Depth measure for the parent walk: the number of rows with strictly
smaller `level`.  It strictly decreases from child to parent in any state
whose levels are consistent. -/
def levelMeasure (db : List Node) (cur : Node) : Nat :=
  db.countP (fun x => decide (x.level < cur.level))

theorem levelMeasure_parent_lt (db : List Node) (cur q : Node) (hq : q ∈ db)
    (hlt : q.level < cur.level) :
    levelMeasure db q < levelMeasure db cur := by
  unfold levelMeasure
  apply countP_lt_of_witness _ _ db
  · intro x _ hx
    have h1 : x.level < q.level := of_decide_eq_true hx
    exact decide_eq_true (lt_trans h1 hlt)
  · exact hq
  · exact decide_eq_true hlt
  · intro hcon
    exact absurd (of_decide_eq_true hcon) (lt_irrefl q.level)

theorem lookupId_mem {db : List Node} {i : Nat} {q : Node}
    (h : lookupId db i = some q) : q ∈ db ∧ q.id = i := by
  unfold lookupId at h
  refine ⟨List.mem_of_find?_eq_some h, ?_⟩
  have hp := List.find?_some h
  exact of_decide_eq_true hp

theorem lookupId_of_exists (db : List Node) (i : Nat)
    (h : ∃ q ∈ db, q.id = i) : ∃ q, lookupId db i = some q := by
  cases hfind : lookupId db i with
  | some q => exact ⟨q, rfl⟩
  | none =>
    rcases h with ⟨q, hq, hid⟩
    have := List.find?_eq_none.mp hfind q hq
    exact absurd (decide_eq_true hid) this

/-- The fueled parent walk, on states with consistent levels, resolvable
parents and no `0` parent key, produces a genuine root-to-node path as soon
as the fuel dominates the level measure. -/
theorem buildPath_props (db : List Node)
    (hp0 : ∀ n ∈ db, n.parentId ≠ some 0)
    (hpe : ∀ n ∈ db, ∀ p, n.parentId = some p → ∃ q ∈ db, q.id = p)
    (hlvl : ∀ n ∈ db, ∀ q ∈ db, n.parentId = some q.id → n.level = q.level + 1) :
    ∀ (fuel : Nat) (cur : Node), cur ∈ db → levelMeasure db cur ≤ fuel →
      List.Chain' (fun a b => b.parentId = some a.id) (buildPath db fuel cur)
      ∧ (buildPath db fuel cur).getLast? = some cur
      ∧ (∀ m ∈ buildPath db fuel cur, m ∈ db)
      ∧ (∀ h, (buildPath db fuel cur).head? = some h → h.parentId = none) := by
  intro fuel
  induction fuel with
  | zero =>
    intro cur hcur hm
    have hroot : cur.parentId = none := by
      cases hpar : cur.parentId with
      | none => rfl
      | some p =>
        rcases hpe cur hcur p hpar with ⟨q, hq, hid⟩
        have hlt : q.level < cur.level := by
          have := hlvl cur hcur q hq (hid ▸ hpar)
          omega
        have := levelMeasure_parent_lt db cur q hq hlt
        omega
    refine ⟨by simp [buildPath], by simp [buildPath], ?_, ?_⟩
    · intro m hm'
      simp [buildPath] at hm'
      rw [hm']
      exact hcur
    · intro h hh
      simp [buildPath] at hh
      rw [← hh]
      exact hroot
  | succ fuel ih =>
    intro cur hcur hm
    cases hpar : cur.parentId with
    | none =>
      refine ⟨by simp [buildPath, hpar], by simp [buildPath, hpar],
        by simp [buildPath, hpar, hcur], ?_⟩
      intro h hh
      simp [buildPath, hpar] at hh
      rw [← hh]
      exact hpar
    | some p =>
      have hp : p ≠ 0 := by
        intro h0
        exact hp0 cur hcur (h0 ▸ hpar)
      rcases lookupId_of_exists db p (hpe cur hcur p hpar) with ⟨q, hlook⟩
      rcases lookupId_mem hlook with ⟨hqmem, hqid⟩
      have hlt : q.level < cur.level := by
        have := hlvl cur hcur q hqmem (hqid ▸ hpar)
        omega
      have hmq : levelMeasure db q ≤ fuel := by
        have := levelMeasure_parent_lt db cur q hqmem hlt
        omega
      rcases ih q hqmem hmq with ⟨hchain, hlast, hmem, hhead⟩
      have hne : buildPath db fuel q ≠ [] := by
        intro h0
        rw [h0] at hlast
        simp at hlast
      have hunf : buildPath db (fuel + 1) cur = buildPath db fuel q ++ [cur] := by
        simp [buildPath, hpar, hp, hlook]
      refine ⟨?_, ?_, ?_, ?_⟩
      · rw [hunf, List.chain'_append]
        refine ⟨hchain, List.chain'_singleton cur, ?_⟩
        intro x hx y hy
        rw [hlast] at hx
        have hx' : x = q := by
          cases hx
          rfl
        have hy' : y = cur := by
          simp at hy
          rw [hy]
        rw [hx', hy', hpar, hqid]
      · rw [hunf]
        exact List.getLast?_concat _
      · rw [hunf]
        intro m hm'
        rcases List.mem_append.mp hm' with h | h
        · exact hmem m h
        · simp at h
          rw [h]
          exact hcur
      · rw [hunf]
        intro h hh
        rw [List.head?_append_of_ne_nil _ hne] at hh
        exact hhead h hh

theorem pairwise_ne_id_of_nodup (l : List Node) (hnd : (l.map Node.id).Nodup) :
    l.Pairwise (fun a b => a.id ≠ b.id) := by
  induction l with
  | nil => exact List.Pairwise.nil
  | cons a rest ih =>
    have hcons := nodup_ids_cons a rest hnd
    exact List.Pairwise.cons (fun b hb he => hcons.1 b hb he.symm) (ih hcons.2)

theorem idIndex_sorted_rank (L : List Node) (hsort : List.Sorted ordLe L)
    (hnd : (L.map Node.id).Nodup)
    (hdist : L.Pairwise (fun a b => a.orderIdx ≠ b.orderIdx))
    (m : Node) (hm : m ∈ L) :
    idIndex L m.id = some (L.countP (fun s => decide (s.orderIdx < m.orderIdx))) := by
  induction L with
  | nil => simp at hm
  | cons a rest ih =>
    have hcons := nodup_ids_cons a rest hnd
    have hsort' : List.Sorted ordLe rest := hsort.of_cons
    have hdist' : rest.Pairwise (fun a b => a.orderIdx ≠ b.orderIdx) := hdist.of_cons
    by_cases ham : a.id = m.id
    · have hma : m = a := by
        rcases List.mem_cons.mp hm with h | h
        · exact h
        · exact absurd (ham ▸ rfl) (fun he => hcons.1 m h he)
      subst hma
      have hcnt : List.countP (fun s => decide (s.orderIdx < m.orderIdx)) (m :: rest) = 0 := by
        rw [List.countP_eq_zero]
        intro s hs
        rcases List.mem_cons.mp hs with h | h
        · rw [h]
          simp
        · have hle : ordLe m s := (List.sorted_cons.mp hsort).1 s h
          simp only [decide_eq_true_eq]
          intro hlt
          exact absurd (lt_of_le_of_lt hle hlt) (lt_irrefl _)
      rw [hcnt]
      simp [idIndex]
    · have hmr : m ∈ rest := by
        rcases List.mem_cons.mp hm with h | h
        · exact absurd (h ▸ rfl) ham
        · exact h
      have hlt : a.orderIdx < m.orderIdx := by
        have hle : ordLe a m := (List.sorted_cons.mp hsort).1 m hmr
        have hne : a.orderIdx ≠ m.orderIdx :=
          (List.pairwise_cons.mp hdist).1 m hmr
        exact lt_of_le_of_ne hle hne
      simp only [idIndex]
      rw [if_neg ham, ih hsort' hcons.2 hdist' hmr]
      rw [List.countP_cons]
      simp [hlt]

theorem mem_siblingsOf_self (db : List Node) (m : Node) (hm : m ∈ db)
    (hp0 : m.parentId ≠ some 0) :
    m ∈ siblingsOf db m.parentId := by
  have hcanon : canonParentKey m.parentId = m.parentId := by
    cases hpp : m.parentId with
    | none => rfl
    | some p =>
      cases p with
      | zero => exact absurd hpp hp0
      | succ k => rfl
  apply (siblingsOf_perm db m.parentId).mem_iff.mpr
  apply List.mem_filter.mpr
  exact ⟨hm, by rw [hcanon]; exact decide_eq_true rfl⟩

theorem siblings_parent_eq (db : List Node) (pid : Option Nat) (x : Node)
    (hx : x ∈ siblingsOf db pid) : x.parentId = canonParentKey pid := by
  have hmem := (siblingsOf_perm db pid).mem_iff.mp hx
  have h2 := (List.mem_filter.mp hmem).2
  exact of_decide_eq_true h2

theorem levelCode_eq_specRank (db : List Node)
    (hids : (db.map Node.id).Nodup)
    (hp0 : ∀ n ∈ db, n.parentId ≠ some 0)
    (hord : ∀ a ∈ db, ∀ b ∈ db, a.id ≠ b.id → a.parentId = b.parentId →
      a.orderIdx ≠ b.orderIdx)
    (m : Node) (hm : m ∈ db) :
    levelCode db m = toString (specRank db m) := by
  have hcanon : canonParentKey m.parentId = m.parentId := by
    cases hpp : m.parentId with
    | none => rfl
    | some p =>
      cases p with
      | zero => exact absurd hpp (hp0 m hm)
      | succ k => rfl
  have hmL : m ∈ siblingsOf db m.parentId := mem_siblingsOf_self db m hm (hp0 m hm)
  have hsort : List.Sorted ordLe (siblingsOf db m.parentId) :=
    List.sorted_insertionSort ordLe _
  have hnd : ((siblingsOf db m.parentId).map Node.id).Nodup :=
    siblingsOf_nodup_ids db m.parentId hids
  have hdist : (siblingsOf db m.parentId).Pairwise
      (fun a b => a.orderIdx ≠ b.orderIdx) := by
    refine (pairwise_ne_id_of_nodup _ hnd).imp_of_mem ?_
    intro a b ha hb hab
    have hpa : a.parentId = canonParentKey m.parentId := siblings_parent_eq db _ a ha
    have hpb : b.parentId = canonParentKey m.parentId := siblings_parent_eq db _ b hb
    exact hord a (siblingsOf_subset db _ a ha) b (siblingsOf_subset db _ b hb)
      hab (hpa.trans hpb.symm)
  have hrank := idIndex_sorted_rank _ hsort hnd hdist m hmL
  have hcnt : (siblingsOf db m.parentId).countP (fun s => decide (s.orderIdx < m.orderIdx))
      = (db.filter (fun s => decide (s.parentId = m.parentId ∧ s.orderIdx < m.orderIdx))).length := by
    rw [(siblingsOf_perm db m.parentId).countP_eq]
    rw [List.countP_filter, ← List.countP_eq_length_filter]
    apply List.countP_congr
    intro s _
    rw [hcanon]
    simp [and_comm]
  unfold levelCode specRank
  rw [hrank, hcnt]

/-- **C5.** `generateWbsCode(nodeId)` returns `null` exactly when no node
with that id exists; otherwise it returns the dot-joined sequence of
1-indexed ranks of each node on the root-to-node path (the walked path is a
genuine parent-linked chain from a root to the node, inside the database),
where each rank is the node's 1-indexed position within its sibling group
ordered by `orderIdx` ascending — stated independently as one plus the
number of siblings with strictly smaller `orderIdx`.  Hypotheses: ids are
unique, no parent key is the impossible id `0`, parents resolve, levels are
consistent (`level = parent.level + 1`, the invariant that makes the parent
walk terminate), and sibling `orderIdx` values are distinct. -/
theorem generateWbsCode_spec (db : List Node) (nodeId : Nat)
    (hids : (db.map Node.id).Nodup)
    (hp0 : ∀ n ∈ db, n.parentId ≠ some 0)
    (hpe : ∀ n ∈ db, ∀ p, n.parentId = some p → ∃ q ∈ db, q.id = p)
    (hlvl : ∀ n ∈ db, ∀ q ∈ db, n.parentId = some q.id → n.level = q.level + 1)
    (hord : ∀ a ∈ db, ∀ b ∈ db, a.id ≠ b.id → a.parentId = b.parentId →
      a.orderIdx ≠ b.orderIdx) :
    (lookupId db nodeId = none → generateWbsCode db nodeId = none)
    ∧ ∀ node, lookupId db nodeId = some node →
        generateWbsCode db nodeId
          = some (String.intercalate "."
              ((buildPath db db.length node).map (fun m => toString (specRank db m))))
        ∧ List.Chain' (fun a b => b.parentId = some a.id) (buildPath db db.length node)
        ∧ (buildPath db db.length node).getLast? = some node
        ∧ (∀ m ∈ buildPath db db.length node, m ∈ db)
        ∧ (∀ h, (buildPath db db.length node).head? = some h → h.parentId = none) := by
  constructor
  · intro h
    unfold generateWbsCode
    rw [h]
  · intro node hlook
    rcases lookupId_mem hlook with ⟨hmem, _⟩
    have hfuel : levelMeasure db node ≤ db.length := by
      unfold levelMeasure
      exact List.countP_le_length _
    rcases buildPath_props db hp0 hpe hlvl db.length node hmem hfuel with
      ⟨hchain, hlast, hmemall, hhead⟩
    refine ⟨?_, hchain, hlast, hmemall, hhead⟩
    have hmapeq : (buildPath db db.length node).map (levelCode db)
        = (buildPath db db.length node).map (fun m => toString (specRank db m)) :=
      List.map_congr_left (fun m hm' => levelCode_eq_specRank db hids hp0 hord m (hmemall m hm'))
    simp [generateWbsCode, hlook, hmapeq]

/-- Witness for C5: a three-node state (root 1 with children 2, 3); the
code of node 3 is computed through the theorem at this state. -/
theorem generateWbsCode_spec_witness :
    (([⟨1, none, 0, 0, none, 0⟩, ⟨2, some 1, 0, 1, none, 0⟩, ⟨3, some 1, 1, 1, none, 0⟩] : List Node).map Node.id).Nodup
    ∧ ((lookupId [⟨1, none, 0, 0, none, 0⟩, ⟨2, some 1, 0, 1, none, 0⟩, ⟨3, some 1, 1, 1, none, 0⟩] 3 = none →
          generateWbsCode [⟨1, none, 0, 0, none, 0⟩, ⟨2, some 1, 0, 1, none, 0⟩, ⟨3, some 1, 1, 1, none, 0⟩] 3 = none)
        ∧ ∀ node, lookupId [⟨1, none, 0, 0, none, 0⟩, ⟨2, some 1, 0, 1, none, 0⟩, ⟨3, some 1, 1, 1, none, 0⟩] 3 = some node →
            generateWbsCode [⟨1, none, 0, 0, none, 0⟩, ⟨2, some 1, 0, 1, none, 0⟩, ⟨3, some 1, 1, 1, none, 0⟩] 3
              = some (String.intercalate "."
                  ((buildPath [⟨1, none, 0, 0, none, 0⟩, ⟨2, some 1, 0, 1, none, 0⟩, ⟨3, some 1, 1, 1, none, 0⟩] 3 node).map
                    (fun m => toString (specRank [⟨1, none, 0, 0, none, 0⟩, ⟨2, some 1, 0, 1, none, 0⟩, ⟨3, some 1, 1, 1, none, 0⟩] m))))
            ∧ List.Chain' (fun a b => b.parentId = some a.id)
                (buildPath [⟨1, none, 0, 0, none, 0⟩, ⟨2, some 1, 0, 1, none, 0⟩, ⟨3, some 1, 1, 1, none, 0⟩] 3 node)
            ∧ (buildPath [⟨1, none, 0, 0, none, 0⟩, ⟨2, some 1, 0, 1, none, 0⟩, ⟨3, some 1, 1, 1, none, 0⟩] 3 node).getLast? = some node
            ∧ (∀ m ∈ buildPath [⟨1, none, 0, 0, none, 0⟩, ⟨2, some 1, 0, 1, none, 0⟩, ⟨3, some 1, 1, 1, none, 0⟩] 3 node,
                m ∈ [⟨1, none, 0, 0, none, 0⟩, ⟨2, some 1, 0, 1, none, 0⟩, ⟨3, some 1, 1, 1, none, 0⟩])
            ∧ (∀ h, (buildPath [⟨1, none, 0, 0, none, 0⟩, ⟨2, some 1, 0, 1, none, 0⟩, ⟨3, some 1, 1, 1, none, 0⟩] 3 node).head? = some h →
                h.parentId = none)) :=
  ⟨by decide,
    generateWbsCode_spec [⟨1, none, 0, 0, none, 0⟩, ⟨2, some 1, 0, 1, none, 0⟩, ⟨3, some 1, 1, 1, none, 0⟩] 3
      (by decide) (by decide) (by decide) (by decide) (by decide)⟩

/-! ## The move endpoint (`POST` of `src/unnamed/part_005`)

The handler validates, fetches the node and the target, rejects the
self-move and the redundant `inside` move, computes the new position,
closes the gap in the old sibling group, makes space in the new one,
rewrites the moved row, reindexes both groups and finally regenerates the
codes of the moved subtree.  Every error return happens textually before the
first `db.update`.  The handler performs no descendant check: an `inside`
move onto the mover's own descendant is accepted. -/

inductive MoveError where
  | missingFields
  | selfMove
  | nodeNotFound
  | targetNotFound
  | alreadyChild
  | invalidPosition
deriving DecidableEq, Repr

/-- `findDescendants` of `updateWbsCodesRecursive` (part_005 lines 64-73):
ids of the children, then recursively each child's descendant ids.  The
source recursion is unbounded; on a cyclic state it would recurse forever
(stack overflow), which the fuel truncates. -/
def findDescendantsF (allNodes : List Node) : Nat → Nat → List Nat
  | 0, _ => []
  | fuel + 1, pid =>
    let children := allNodes.filter (fun n => decide (n.parentId = some pid))
    children.map Node.id ++ (children.map (fun c => findDescendantsF allNodes fuel c.id)).flatten

/-- One iteration of the update loop of `updateWbsCodesRecursive` (lines
77-85): regenerate the code and store it when truthy (`if (wbsCode)`; the
generated code is never the empty string, the only falsy non-null value). -/
def applyWbsUpdate (db : List Node) (i : Nat) : List Node :=
  match generateWbsCode db i with
  | some code =>
    if code = "" then db
    else db.map (fun n => if n.id = i then { n with wbsCode := some code } else n)
  | none => db

/-- `updateWbsCodesRecursive(nodeId)` (lines 61-86). -/
def updateWbsCodesRecursive (db : List Node) (nodeId : Nat) : List Node :=
  (nodeId :: findDescendantsF db db.length nodeId).foldl applyWbsUpdate db

/-- `SELECT ... WHERE parent_id = p ORDER BY order_idx` with a plain `eq`
(no truthiness), as used for the current siblings in STEP 1 and for the
children count of the `inside` case. -/
def exactSiblings (db : List Node) (p : Nat) : List Node :=
  sortByOrderIdx (db.filter (fun n => decide (n.parentId = some p)))

/-- A fetched row set driving a loop of conditional per-id `db.update`
calls: for each fetched row satisfying `cond`, rewrite the row with that id
through `upd`. -/
def foldUpdates (steps : List Node) (cond : Node → Bool) (upd : Node → Node → Node)
    (db : List Node) : List Node :=
  steps.foldl
    (fun d s => if cond s then d.map (fun n => if n.id = s.id then upd s n else n) else d) db

/-- STEP 1 of the move (lines 207-228): close the gap in the old sibling
group by shifting every sibling after the moved node one slot down. -/
def closeGapStep (db : List Node) (oldPid : Nat) (oldOrd : Int) (now : Nat) : List Node :=
  foldUpdates (exactSiblings db oldPid) (fun s => decide (oldOrd < s.orderIdx))
    (fun s n => { n with orderIdx := s.orderIdx - 1, updatedAt := now }) db

/-- STEP 2 of the move (lines 230-251): make room in the destination group
by shifting every sibling at or after the insertion point (other than the
moved node itself) one slot up. -/
def makeSpaceStep (db : List Node) (newPid : Option Nat) (nodeId : Nat)
    (insertPos : Int) (now : Nat) : List Node :=
  foldUpdates (siblingsOf db newPid)
    (fun s => decide (s.id ≠ nodeId) && decide (insertPos ≤ s.orderIdx))
    (fun s n => { n with orderIdx := s.orderIdx + 1, updatedAt := now }) db

/-- STEP 3 (lines 253-265): write the moved row's new parent, position and
level. -/
def updateMovedNode (db : List Node) (nodeId : Nat) (newPid : Option Nat)
    (insertPos newLevel : Int) (now : Nat) : List Node :=
  db.map (fun n =>
    if n.id = nodeId then
      { n with parentId := newPid, orderIdx := insertPos, level := newLevel, updatedAt := now }
    else n)

/-- The `switch (position.type)` new-parent computation (lines 167-194). -/
def moveNewParentId (targetNode : Node) (targetId : Nat) (posType : String) : Option Nat :=
  if posType = "inside" then some targetId else targetNode.parentId

/-- The `switch (position.type)` new-level computation. -/
def moveNewLevel (targetNode : Node) (posType : String) : Int :=
  if posType = "inside" then targetNode.level + 1 else targetNode.level

/-- The raw `insertPosition` of the switch, before the same-parent
adjustment: `target.orderIdx` for `above`, `target.orderIdx + 1` for
`below`, and the count of the target's existing children for `inside`. -/
def moveRawInsert (db : List Node) (targetNode : Node) (targetId : Nat)
    (posType : String) : Int :=
  if posType = "above" then targetNode.orderIdx
  else if posType = "below" then targetNode.orderIdx + 1
  else Int.ofNat (db.filter (fun n => decide (n.parentId = some targetId))).length

/-- The adjusted `insertPosition` (lines 201-205): when the node stays under
the same parent and its old `orderIdx` is below the computed position, the
position is decremented by one. -/
def moveInsertPos (db : List Node) (nodeToMove targetNode : Node) (targetId : Nat)
    (posType : String) : Int :=
  let raw := moveRawInsert db targetNode targetId posType
  if nodeToMove.parentId = moveNewParentId targetNode targetId posType
      ∧ nodeToMove.orderIdx < raw
  then raw - 1 else raw

/-- The state right after STEP 3 (gap closed, space made, moved row
rewritten), before the cleanup reindexes of STEP 4. -/
def moveStateAfterUpdate (db : List Node) (nodeToMove targetNode : Node)
    (nodeId targetId : Nat) (posType : String) (now : Nat) : List Node :=
  let newPid := moveNewParentId targetNode targetId posType
  let ipos := moveInsertPos db nodeToMove targetNode targetId posType
  let db1 :=
    match nodeToMove.parentId with
    | some op => closeGapStep db op nodeToMove.orderIdx now
    | none => db
  let db2 := makeSpaceStep db1 newPid nodeId ipos now
  updateMovedNode db2 nodeId newPid ipos (moveNewLevel targetNode posType) now

/-- STEPs 4 and 5 (lines 267-280): reindex the old group when the parent
changed and was not `null`, reindex the new group, then regenerate the
codes of the moved node and its descendants. -/
def moveStateFinal (db : List Node) (nodeToMove targetNode : Node)
    (nodeId targetId : Nat) (posType : String) (now : Nat) : List Node :=
  let newPid := moveNewParentId targetNode targetId posType
  let db3 := moveStateAfterUpdate db nodeToMove targetNode nodeId targetId posType now
  let db4 :=
    if nodeToMove.parentId ≠ newPid ∧ nodeToMove.parentId ≠ none then
      match nodeToMove.parentId with
      | some op => reorderNodes db3 (some op) now
      | none => db3
    else db3
  let db5 := reorderNodes db4 newPid now
  updateWbsCodesRecursive db5 nodeId

/-- The `POST` handler of `src/unnamed/part_005` (lines 108-297).  The error
checks appear in source order; each error return carries back the state as
it stood at the return, and every check precedes the first update. -/
def movePost (db : List Node) (nodeId targetId : Nat) (posType : String) (now : Nat) :
    Option MoveError × List Node :=
  if nodeId = 0 ∨ targetId = 0 then (some MoveError.missingFields, db)
  else if nodeId = targetId then (some MoveError.selfMove, db)
  else
    match lookupId db nodeId, lookupId db targetId with
    | none, _ => (some MoveError.nodeNotFound, db)
    | some _, none => (some MoveError.targetNotFound, db)
    | some nodeToMove, some targetNode =>
      if posType = "inside" ∧ nodeToMove.parentId = some targetId then
        (some MoveError.alreadyChild, db)
      else if posType ≠ "above" ∧ posType ≠ "below" ∧ posType ≠ "inside" then
        (some MoveError.invalidPosition, db)
      else (none, moveStateFinal db nodeToMove targetNode nodeId targetId posType now)

theorem eq_of_mem_of_id_eq (db : List Node) (hids : (db.map Node.id).Nodup)
    (a : Node) (ha : a ∈ db) (b : Node) (hb : b ∈ db) (hab : a.id = b.id) : a = b := by
  induction db with
  | nil => simp at ha
  | cons h t ih =>
    have hcons := nodup_ids_cons h t hids
    rcases List.mem_cons.mp ha with h1 | h1 <;> rcases List.mem_cons.mp hb with h2 | h2
    · rw [h1, h2]
    · exact absurd (h1 ▸ hab.symm) (hcons.1 b h2)
    · exact absurd (h2 ▸ hab) (hcons.1 a h1)
    · exact ih hcons.2 h1 h2

theorem exactSiblings_subset (db : List Node) (p : Nat) :
    ∀ x ∈ exactSiblings db p, x ∈ db := by
  intro x hx
  have hmem := (List.perm_insertionSort ordLe _).mem_iff.mp hx
  exact List.mem_of_mem_filter hmem

theorem find?_map_update_ne (db : List Node) (tid X : Nat) (f : Node → Node)
    (hf : ∀ n, (f n).id = n.id) (hne : tid ≠ X) :
    (db.map (fun n => if n.id = tid then f n else n)).find? (fun n => decide (n.id = X))
      = db.find? (fun n => decide (n.id = X)) := by
  induction db with
  | nil => rfl
  | cons a rest ih =>
    simp only [List.map_cons, List.find?]
    by_cases hid : a.id = tid
    · by_cases haX : a.id = X
      · exact absurd (hid ▸ haX) hne
      · have h1 : (if a.id = tid then f a else a).id = a.id := by
          rw [if_pos hid, hf]
        simp only [h1, decide_eq_false haX]
        exact ih
    · have h1 : (if a.id = tid then f a else a) = a := if_neg hid
      simp only [h1]
      by_cases haX : a.id = X
      · simp only [decide_eq_true haX]
      · simp only [decide_eq_false haX]
        exact ih

theorem find?_foldUpdates_untouched (X : Nat) (cond : Node → Bool)
    (upd : Node → Node → Node) (hid : ∀ s n, (upd s n).id = n.id) :
    ∀ (steps : List Node) (db : List Node),
      (∀ s ∈ steps, cond s = true → s.id ≠ X) →
      (foldUpdates steps cond upd db).find? (fun n => decide (n.id = X))
        = db.find? (fun n => decide (n.id = X)) := by
  intro steps
  induction steps with
  | nil => intro db _; rfl
  | cons s rest ih =>
    intro db hst
    unfold foldUpdates
    rw [List.foldl_cons]
    by_cases hc : cond s = true
    · rw [if_pos hc]
      have hrec := ih (db.map (fun n => if n.id = s.id then upd s n else n))
        (fun x hx hcx => hst x (List.mem_cons_of_mem s hx) hcx)
      unfold foldUpdates at hrec
      rw [hrec]
      exact find?_map_update_ne db s.id X (upd s) (hid s) (hst s (List.mem_cons_self s rest) hc)
    · rw [if_neg hc]
      have hrec := ih db (fun x hx hcx => hst x (List.mem_cons_of_mem s hx) hcx)
      unfold foldUpdates at hrec
      exact hrec

theorem find?_updateMovedNode_self (db : List Node) (nodeId : Nat)
    (newPid : Option Nat) (ipos lvl : Int) (now : Nat) :
    (updateMovedNode db nodeId newPid ipos lvl now).find? (fun n => decide (n.id = nodeId))
      = (db.find? (fun n => decide (n.id = nodeId))).map
          (fun n => { n with parentId := newPid, orderIdx := ipos, level := lvl, updatedAt := now }) := by
  induction db with
  | nil => rfl
  | cons a rest ih =>
    unfold updateMovedNode
    simp only [List.map_cons, List.find?]
    by_cases hid : a.id = nodeId
    · have h1 : (if a.id = nodeId then ({ a with parentId := newPid, orderIdx := ipos, level := lvl, updatedAt := now } : Node) else a) = { a with parentId := newPid, orderIdx := ipos, level := lvl, updatedAt := now } :=
        if_pos hid
      have h2 : ({ a with parentId := newPid, orderIdx := ipos, level := lvl, updatedAt := now } : Node).id = a.id := rfl
      simp only [h1, h2, decide_eq_true hid]
      rfl
    · have h1 : (if a.id = nodeId then ({ a with parentId := newPid, orderIdx := ipos, level := lvl, updatedAt := now } : Node) else a) = a := if_neg hid
      simp only [h1, decide_eq_false hid]
      unfold updateMovedNode at ih
      exact ih

/-- **C8.** Every rejected move request — missing fields, self-move,
unknown node or target, redundant `inside` move onto the current direct
parent, or an invalid position type — returns before any sibling
reindexing, row update or code propagation executes: the state carried back
with the error equals the input state unchanged. -/
theorem movePost_error_no_mutation (db : List Node) (nodeId targetId : Nat)
    (posType : String) (now : Nat) (e : MoveError) (db' : List Node)
    (h : movePost db nodeId targetId posType now = (some e, db')) : db' = db := by
  unfold movePost at h
  by_cases h1 : nodeId = 0 ∨ targetId = 0
  · rw [if_pos h1] at h
    cases h
    rfl
  rw [if_neg h1] at h
  by_cases h2 : nodeId = targetId
  · rw [if_pos h2] at h
    cases h
    rfl
  rw [if_neg h2] at h
  cases hl1 : lookupId db nodeId with
  | none =>
    rw [hl1] at h
    cases h
    rfl
  | some ntm =>
    cases hl2 : lookupId db targetId with
    | none =>
      rw [hl1, hl2] at h
      cases h
      rfl
    | some tgt =>
      rw [hl1, hl2] at h
      have h' : (if posType = "inside" ∧ ntm.parentId = some targetId then (some MoveError.alreadyChild, db) else if posType ≠ "above" ∧ posType ≠ "below" ∧ posType ≠ "inside" then (some MoveError.invalidPosition, db) else (none, moveStateFinal db ntm tgt nodeId targetId posType now)) = (some e, db') := h
      by_cases h3 : posType = "inside" ∧ ntm.parentId = some targetId
      · rw [if_pos h3] at h'
        cases h'
        rfl
      rw [if_neg h3] at h'
      by_cases h4 : posType ≠ "above" ∧ posType ≠ "below" ∧ posType ≠ "inside"
      · rw [if_pos h4] at h'
        cases h'
        rfl
      · rw [if_neg h4] at h'
        cases h'

/-- Witness for C8: the self-move `nodeId = targetId = 1` is rejected and
the returned state is the input state. -/
theorem movePost_error_no_mutation_witness :
    movePost [⟨1, none, 0, 0, none, 0⟩, ⟨2, some 1, 0, 1, none, 0⟩] 1 1 "inside" 0
        = (some MoveError.selfMove, [⟨1, none, 0, 0, none, 0⟩, ⟨2, some 1, 0, 1, none, 0⟩])
    ∧ ([⟨1, none, 0, 0, none, 0⟩, ⟨2, some 1, 0, 1, none, 0⟩] : List Node)
        = [⟨1, none, 0, 0, none, 0⟩, ⟨2, some 1, 0, 1, none, 0⟩] :=
  ⟨by decide,
    movePost_error_no_mutation [⟨1, none, 0, 0, none, 0⟩, ⟨2, some 1, 0, 1, none, 0⟩]
      1 1 "inside" 0 MoveError.selfMove _ (by decide)⟩

/-- **C3.** For every move in which the node's new parent equals its old
parent and the node's old `orderIdx` is strictly below the raw computed
`insertPosition`, the handler decrements the insert position by one before
applying it: the adjusted position is `raw - 1`, and the row written in
STEP 3 (after the gap in the old slot has been closed) carries exactly that
decremented position. -/
theorem moveInsertPos_same_parent_decrement (db : List Node) (nodeId targetId : Nat)
    (posType : String) (now : Nat) (nodeToMove targetNode : Node)
    (hids : (db.map Node.id).Nodup)
    (hfound : lookupId db nodeId = some nodeToMove)
    (hsame : nodeToMove.parentId = moveNewParentId targetNode targetId posType)
    (hlt : nodeToMove.orderIdx < moveRawInsert db targetNode targetId posType) :
    moveInsertPos db nodeToMove targetNode targetId posType
        = moveRawInsert db targetNode targetId posType - 1
    ∧ (moveStateAfterUpdate db nodeToMove targetNode nodeId targetId posType now).find?
          (fun n => decide (n.id = nodeId))
        = some { nodeToMove with parentId := moveNewParentId targetNode targetId posType, orderIdx := moveRawInsert db targetNode targetId posType - 1, level := moveNewLevel targetNode posType, updatedAt := now } := by
  rcases lookupId_mem hfound with ⟨hmem, hid⟩
  have hipos : moveInsertPos db nodeToMove targetNode targetId posType
      = moveRawInsert db targetNode targetId posType - 1 := by
    unfold moveInsertPos
    rw [if_pos ⟨hsame, hlt⟩]
  refine ⟨hipos, ?_⟩
  have hfind1 : (match nodeToMove.parentId with
      | some op => closeGapStep db op nodeToMove.orderIdx now
      | none => db).find? (fun n => decide (n.id = nodeId)) = some nodeToMove := by
    cases hpp : nodeToMove.parentId with
    | none => exact hfound
    | some op =>
      show (closeGapStep db op nodeToMove.orderIdx now).find? (fun n => decide (n.id = nodeId))
        = some nodeToMove
      have hst : ∀ s ∈ exactSiblings db op,
          (fun s => decide (nodeToMove.orderIdx < s.orderIdx)) s = true → s.id ≠ nodeId := by
        intro s hs hc he
        have hsdb : s ∈ db := exactSiblings_subset db op s hs
        have hseq : s = nodeToMove :=
          eq_of_mem_of_id_eq db hids s hsdb nodeToMove hmem (he.trans hid.symm)
        rw [hseq] at hc
        exact absurd (of_decide_eq_true hc) (lt_irrefl _)
      have hres := find?_foldUpdates_untouched nodeId
        (fun s => decide (nodeToMove.orderIdx < s.orderIdx))
        (fun s n => { n with orderIdx := s.orderIdx - 1, updatedAt := now })
        (fun s n => rfl) (exactSiblings db op) db hst
      unfold closeGapStep
      rw [hres]
      exact hfound
  have hfind2 : (makeSpaceStep (match nodeToMove.parentId with
        | some op => closeGapStep db op nodeToMove.orderIdx now
        | none => db) (moveNewParentId targetNode targetId posType) nodeId
        (moveInsertPos db nodeToMove targetNode targetId posType) now).find?
        (fun n => decide (n.id = nodeId)) = some nodeToMove := by
    have hst : ∀ s ∈ siblingsOf (match nodeToMove.parentId with
          | some op => closeGapStep db op nodeToMove.orderIdx now
          | none => db) (moveNewParentId targetNode targetId posType),
        (fun s => decide (s.id ≠ nodeId)
          && decide (moveInsertPos db nodeToMove targetNode targetId posType ≤ s.orderIdx)) s = true
          → s.id ≠ nodeId := by
      intro s _ hc
      have hc1 := (Bool.and_eq_true _ _).mp hc
      exact of_decide_eq_true hc1.1
    have hres := find?_foldUpdates_untouched nodeId
      (fun s => decide (s.id ≠ nodeId)
        && decide (moveInsertPos db nodeToMove targetNode targetId posType ≤ s.orderIdx))
      (fun s n => { n with orderIdx := s.orderIdx + 1, updatedAt := now })
      (fun s n => rfl)
      (siblingsOf (match nodeToMove.parentId with
        | some op => closeGapStep db op nodeToMove.orderIdx now
        | none => db) (moveNewParentId targetNode targetId posType))
      (match nodeToMove.parentId with
        | some op => closeGapStep db op nodeToMove.orderIdx now
        | none => db) hst
    unfold makeSpaceStep
    rw [hres]
    exact hfind1
  show (updateMovedNode (makeSpaceStep (match nodeToMove.parentId with | some op => closeGapStep db op nodeToMove.orderIdx now | none => db) (moveNewParentId targetNode targetId posType) nodeId (moveInsertPos db nodeToMove targetNode targetId posType) now) nodeId (moveNewParentId targetNode targetId posType) (moveInsertPos db nodeToMove targetNode targetId posType) (moveNewLevel targetNode posType) now).find? (fun n => decide (n.id = nodeId)) = some { nodeToMove with parentId := moveNewParentId targetNode targetId posType, orderIdx := moveRawInsert db targetNode targetId posType - 1, level := moveNewLevel targetNode posType, updatedAt := now }
  rw [find?_updateMovedNode_self, hfind2, Option.map_some', hipos]

/-- Witness for C3: roots 1 and 2 at positions 0 and 1; moving node 1
`below` node 2 inside the same (root) group computes raw position 2 and
applies the decremented position 1. -/
theorem moveInsertPos_same_parent_decrement_witness :
    (([⟨1, none, 0, 0, none, 0⟩, ⟨2, none, 1, 0, none, 0⟩] : List Node).map Node.id).Nodup
    ∧ lookupId [⟨1, none, 0, 0, none, 0⟩, ⟨2, none, 1, 0, none, 0⟩] 1 = some ⟨1, none, 0, 0, none, 0⟩
    ∧ (⟨1, none, 0, 0, none, 0⟩ : Node).parentId
        = moveNewParentId ⟨2, none, 1, 0, none, 0⟩ 2 "below"
    ∧ (⟨1, none, 0, 0, none, 0⟩ : Node).orderIdx
        < moveRawInsert [⟨1, none, 0, 0, none, 0⟩, ⟨2, none, 1, 0, none, 0⟩] ⟨2, none, 1, 0, none, 0⟩ 2 "below"
    ∧ (moveInsertPos [⟨1, none, 0, 0, none, 0⟩, ⟨2, none, 1, 0, none, 0⟩] ⟨1, none, 0, 0, none, 0⟩ ⟨2, none, 1, 0, none, 0⟩ 2 "below"
          = moveRawInsert [⟨1, none, 0, 0, none, 0⟩, ⟨2, none, 1, 0, none, 0⟩] ⟨2, none, 1, 0, none, 0⟩ 2 "below" - 1
        ∧ (moveStateAfterUpdate [⟨1, none, 0, 0, none, 0⟩, ⟨2, none, 1, 0, none, 0⟩] ⟨1, none, 0, 0, none, 0⟩ ⟨2, none, 1, 0, none, 0⟩ 1 2 "below" 9).find?
              (fun n => decide (n.id = 1))
            = some { (⟨1, none, 0, 0, none, 0⟩ : Node) with parentId := moveNewParentId ⟨2, none, 1, 0, none, 0⟩ 2 "below", orderIdx := moveRawInsert [⟨1, none, 0, 0, none, 0⟩, ⟨2, none, 1, 0, none, 0⟩] ⟨2, none, 1, 0, none, 0⟩ 2 "below" - 1, level := moveNewLevel ⟨2, none, 1, 0, none, 0⟩ "below", updatedAt := 9 }) :=
  ⟨by decide, by decide, by decide, by decide,
    moveInsertPos_same_parent_decrement [⟨1, none, 0, 0, none, 0⟩, ⟨2, none, 1, 0, none, 0⟩]
      1 2 "below" 9 ⟨1, none, 0, 0, none, 0⟩ ⟨2, none, 1, 0, none, 0⟩
      (by decide) (by decide) (by decide) (by decide)⟩

/-- **C1** (counter-evidence for the claimed cycle rejection).  State: node 1
is a root, node 2 is its child.  The request moves node 1 `inside` its own
descendant 2.  The handler accepts the move (no error), rewrites node 1's
`parentId` to 2 while node 2 still points to node 1 — the accepted move has
created a parent cycle and mutated the state, where the specification
demands a rejection with no mutation.  (The source's subsequent descendant
walk recurses through this cycle without terminating; the fuel of the model
truncates that walk, which affects only `wbsCode` strings, not the
`parentId` facts stated here.) -/
theorem movePost_accepts_descendant_cycle :
    (movePost [⟨1, none, 0, 0, none, 0⟩, ⟨2, some 1, 0, 1, none, 0⟩] 1 2 "inside" 5).1 = none
    ∧ (((movePost [⟨1, none, 0, 0, none, 0⟩, ⟨2, some 1, 0, 1, none, 0⟩] 1 2 "inside" 5).2.find?
          (fun n => decide (n.id = 1))).map Node.parentId) = some (some 2)
    ∧ (((movePost [⟨1, none, 0, 0, none, 0⟩, ⟨2, some 1, 0, 1, none, 0⟩] 1 2 "inside" 5).2.find?
          (fun n => decide (n.id = 2))).map Node.parentId) = some (some 1) := by
  decide

/-- The `inside` rank computation of the earlier revision
`src/app/api/nodes/move/route.ts` (lines 147-155): the comment reads
"Get the last child's order index", but the query orders by `order_idx`
ascending and takes the first row, so the computed new `orderIdx` is the
smallest child `orderIdx` plus one. -/
def legacyInsideOrderIdx (db : List Node) (targetId : Nat) : Int :=
  match sortByOrderIdx (db.filter (fun n => decide (n.parentId = some targetId))) with
  | [] => 0
  | c :: _ => c.orderIdx + 1

/-- **C2** (counter-evidence at the `route.ts` revision).  A target with two
children at positions 0 and 1: the legacy revision computes insertion rank
`1` (first child's `orderIdx` plus one) where the child count — the rank the
specification and the `part_005` revision (`moveRawInsert`) prescribe — is
`2`. -/
theorem legacyInsideOrderIdx_ne_child_count :
    legacyInsideOrderIdx [⟨1, none, 0, 0, none, 0⟩, ⟨2, some 1, 0, 1, none, 0⟩, ⟨3, some 1, 1, 1, none, 0⟩] 1 = 1
    ∧ (([⟨1, none, 0, 0, none, 0⟩, ⟨2, some 1, 0, 1, none, 0⟩, ⟨3, some 1, 1, 1, none, 0⟩] : List Node).filter
        (fun n => decide (n.parentId = some 1))).length = 2
    ∧ moveRawInsert [⟨1, none, 0, 0, none, 0⟩, ⟨2, some 1, 0, 1, none, 0⟩, ⟨3, some 1, 1, 1, none, 0⟩]
        ⟨1, none, 0, 0, none, 0⟩ 1 "inside" = 2
    ∧ (1 : Int) ≠ 2 := by
  decide

/-! ## The tree projection (`src/lib/tree-utils.ts`)

`TreeUtils.buildTree` keys a `Map` by id (a later record with the same id
overwrites the value, the key keeps its first-insertion position), pushes
every record onto its parent's `children` when the parent id is in the map,
collects the `parentId === null` records as roots, and finally sorts every
children array and the root array by `orderIdx` with a stable sort.  The
value produced is the forest reachable from the roots: the children of a
node with id `i` are exactly the records with `parentId = some i`, each
carrying its own children recursively.  The recursion depth is bounded by
the number of records (parent chains of reachable nodes cannot repeat), so
the unfolding below runs on fuel `length + 1`. -/

/-- The in-memory tree node of `src/lib/types.ts`: the row fields plus the
owned `children` array. -/
inductive TreeNode where
  | mk : Node → List TreeNode → TreeNode

def TreeNode.data : TreeNode → Node
  | .mk d _ => d

def TreeNode.children : TreeNode → List TreeNode
  | .mk _ c => c

/-- The `Map.set` pass of `buildTree`: one record per id, at the position of
the id's first occurrence, carrying the value of its last occurrence. -/
def dedupeValue (n : Node) (rest : List Node) : Node :=
  match rest.reverse.find? (fun x => decide (x.id = n.id)) with
  | some m => m
  | none => n

def dedupeById : Nat → List Node → List Node
  | 0, _ => []
  | _ + 1, [] => []
  | fuel + 1, n :: rest =>
    dedupeValue n rest :: dedupeById fuel (rest.filter (fun x => decide (x.id ≠ n.id)))

def dedupeByIdAll (l : List Node) : List Node := dedupeById l.length l

/-- Membership in a sibling group of the tree builder: `parentId === null`
for the roots, `parentId === i` (via the `Map` lookup) for the children of
the node with id `i`.  `buildTree` compares with strict equality — no
truthiness here. -/
def childKey (pk : Option Nat) (n : Node) : Bool := decide (n.parentId = pk)

/-- The reachable forest under a parent key: the sorted sibling group, each
node carrying the forest under its own id. -/
def buildForest (u : List Node) : Nat → Option Nat → List TreeNode
  | 0, _ => []
  | fuel + 1, pk =>
    (sortByOrderIdx (u.filter (childKey pk))).map
      (fun n => TreeNode.mk n (buildForest u fuel (some n.id)))

/-- `TreeUtils.buildTree` (tree-utils lines 4-32). -/
def buildTree (nodes : List Node) : List TreeNode :=
  let u := dedupeByIdAll nodes
  buildForest u (u.length + 1) none

/-- `TreeUtils.flattenTree` (lines 34-44): pre-order depth-first traversal,
parent before children; each visited node is emitted through its row
fields (which is all `buildTree` reads when the list is fed back). -/
def flattenForest : List TreeNode → List Node
  | [] => []
  | .mk d c :: ts => d :: (flattenForest c ++ flattenForest ts)

def flattenTree (roots : List TreeNode) : List Node := flattenForest roots

/-- All tree positions of a forest, in pre-order. -/
def subtreesF : List TreeNode → List TreeNode
  | [] => []
  | .mk d c :: ts => .mk d c :: (subtreesF c ++ subtreesF ts)

def forestData (ts : List TreeNode) : List Node := ts.map TreeNode.data

/-- `i` occurs on the parent chain of `m` inside `u`. -/
inductive Up (u : List Node) : Node → Nat → Prop where
  | direct (m : Node) (i : Nat) : m.parentId = some i → Up u m i
  | step (m a : Node) (i : Nat) : m.parentId = some a.id → a ∈ u → Up u a i → Up u m i

/-- The full ancestor chain of a parent key: empty for the root key and for
a dangling key, otherwise the keyed node followed by its own chain. -/
def KeyChain (u : List Node) : Option Nat → List Node → Prop
  | none, cs => cs = []
  | some i, [] => ∀ a ∈ u, a.id ≠ i
  | some i, a :: cs => a ∈ u ∧ a.id = i ∧ KeyChain u a.parentId cs

theorem Up.extend {u : List Node} {m a : Node} {j : Nat}
    (h : Up u m a.id) (ha : a ∈ u) (hpar : a.parentId = some j) : Up u m j := by
  have aux : ∀ (x : Node) (i : Nat), Up u x i → ∀ (b : Node), i = b.id → b ∈ u →
      b.parentId = some j → Up u x j := by
    intro x i hup
    induction hup with
    | direct y k hy =>
      intro b hi hb hpar'
      exact Up.step y b j (hi ▸ hy) hb (Up.direct b j hpar')
    | step y c k hyc hc _ ih =>
      intro b hi hb hpar'
      exact Up.step y c j hyc hc (ih b hi hb hpar')
  exact aux m a.id h a rfl ha hpar

theorem Up.trans {u : List Node} {m x : Node} {j : Nat}
    (h1 : Up u m x.id) (hx : x ∈ u) (h2 : Up u x j) : Up u m j := by
  have aux : ∀ (y : Node) (k : Nat), Up u y k → ∀ (w : Node), Up u w y.id → y ∈ u → Up u w k := by
    intro y k hup
    induction hup with
    | direct z i hz =>
      intro w h1' hz'
      exact Up.extend h1' hz' hz
    | step z b i hzb hb _ ih =>
      intro w h1' hz'
      exact ih w (Up.extend h1' hz' hzb) hb
  exact aux x j h2 m h1 hx

theorem sortFilter_subset (u : List Node) (p : Node → Bool) :
    ∀ x ∈ sortByOrderIdx (u.filter p), x ∈ u := by
  intro x hx
  have hmem := (List.perm_insertionSort ordLe _).mem_iff.mp hx
  exact List.mem_of_mem_filter hmem

theorem sortFilter_pred (u : List Node) (p : Node → Bool) :
    ∀ x ∈ sortByOrderIdx (u.filter p), p x = true := by
  intro x hx
  have hmem := (List.perm_insertionSort ordLe _).mem_iff.mp hx
  exact List.of_mem_filter hmem

theorem sortFilter_nodup_ids (u : List Node) (p : Node → Bool)
    (hids : (u.map Node.id).Nodup) :
    ((sortByOrderIdx (u.filter p)).map Node.id).Nodup := by
  have hsub : (u.filter p).Sublist u := List.filter_sublist u
  have hnd : ((u.filter p).map Node.id).Nodup := (hsub.map Node.id).nodup hids
  exact (((List.perm_insertionSort ordLe (u.filter p))).map Node.id).nodup_iff.mpr hnd

theorem sortFilter_mem_of (u : List Node) (p : Node → Bool) (x : Node)
    (hx : x ∈ u) (hp : p x = true) : x ∈ sortByOrderIdx (u.filter p) := by
  apply (List.perm_insertionSort ordLe _).mem_iff.mpr
  exact List.mem_filter.mpr ⟨hx, hp⟩

theorem keyChain_mem (u : List Node) :
    ∀ (cs : List Node) (pk : Option Nat), KeyChain u pk cs → ∀ c ∈ cs, c ∈ u := by
  intro cs
  induction cs with
  | nil => intro pk _ c hc; simp at hc
  | cons c0 cs' ih =>
    intro pk hkc c hc
    cases pk with
    | none => exact absurd hkc (List.cons_ne_nil c0 cs')
    | some i =>
      obtain ⟨h1, _, h3⟩ := hkc
      rcases List.mem_cons.mp hc with hcc | hcc
      · rw [hcc]; exact h1
      · exact ih c0.parentId h3 c hcc

theorem up_mem_chain (u : List Node) (hids : (u.map Node.id).Nodup) :
    ∀ (a : Node) (i : Nat), Up u a i → ∀ (cs : List Node), KeyChain u a.parentId cs →
      (∃ b ∈ cs, b.id = i) ∨ (∀ q ∈ u, q.id ≠ i) := by
  intro a i hup
  induction hup with
  | direct m j hm =>
    intro cs hkc
    rw [hm] at hkc
    cases cs with
    | nil => right; exact hkc
    | cons b cs' =>
      obtain ⟨_, hbid, _⟩ := hkc
      left
      exact ⟨b, List.mem_cons_self b cs', hbid⟩
  | step m b j hmb hb _ ih =>
    intro cs hkc
    rw [hmb] at hkc
    cases cs with
    | nil => exact absurd rfl (hkc b hb)
    | cons c cs' =>
      obtain ⟨hc, hcid, hrest⟩ := hkc
      have hcb : c = b := eq_of_mem_of_id_eq u hids c hc b hb hcid
      rw [hcb] at hrest
      rcases ih cs' hrest with ⟨b', hb', hid'⟩ | hdang
      · left; exact ⟨b', List.mem_cons_of_mem c hb', hid'⟩
      · right; exact hdang

theorem keyChain_up (u : List Node) :
    ∀ (cs' : List Node) (c0 : Node), KeyChain u c0.parentId cs' → ∀ c ∈ cs', Up u c0 c.id := by
  intro cs'
  induction cs' with
  | nil => intro c0 _ c hc; simp at hc
  | cons c1 rest ih =>
    intro c0 hkc c hc
    cases hpp : c0.parentId with
    | none =>
      rw [hpp] at hkc
      exact absurd hkc (List.cons_ne_nil c1 rest)
    | some i =>
      rw [hpp] at hkc
      obtain ⟨h1, h2, h3⟩ := hkc
      have hpc : c0.parentId = some c1.id := by rw [hpp, h2]
      rcases List.mem_cons.mp hc with hcc | hcc
      · rw [hcc]
        exact Up.direct c0 c1.id hpc
      · exact Up.step c0 c1 c.id hpc h1 (ih c1 h3 c hcc)

/-- A member of the sibling group under `pk` never shares an id with the
ancestor chain of `pk`: the chain is acyclic. -/
theorem sib_id_not_in_chain (u : List Node) (hids : (u.map Node.id).Nodup)
    (cs : List Node) (pk : Option Nat) (hkc : KeyChain u pk cs)
    (hnd : (cs.map Node.id).Nodup) (n : Node) (hn : n ∈ u) (hpk : n.parentId = pk) :
    ∀ c ∈ cs, n.id ≠ c.id := by
  intro c hc he
  have hcu : c ∈ u := keyChain_mem u cs pk hkc c hc
  have hcn : c = n := eq_of_mem_of_id_eq u hids c hcu n hn he.symm
  cases cs with
  | nil => simp at hc
  | cons c0 cs' =>
    cases pk with
    | none => exact absurd hkc (List.cons_ne_nil c0 cs')
    | some i =>
      obtain ⟨h01, h02, h03⟩ := hkc
      have hcpar : c.parentId = some i := by rw [hcn, hpk]
      rcases List.mem_cons.mp hc with hcc | hcc
      · have hpp : c0.parentId = some c0.id := by
          rw [← hcc, hcpar]
          rw [hcc, h02]
        rw [hpp] at h03
        cases cs' with
        | nil => exact absurd rfl (h03 c0 h01)
        | cons c1 rest =>
          obtain ⟨h11, h12, _⟩ := h03
          have hcons := nodup_ids_cons c0 (c1 :: rest) hnd
          exact hcons.1 c1 (List.mem_cons_self c1 rest) h12
      · have hup0 : Up u c0 c.id := keyChain_up u cs' c0 h03 c hcc
        have hext : Up u c0 c0.id := by
          have hcp : c.parentId = some c0.id := by rw [hcpar, h02]
          exact Up.extend hup0 hcu hcp
        rcases up_mem_chain u hids c0 c0.id hext cs' h03 with ⟨b', hb', hid'⟩ | hdang
        · have hcons := nodup_ids_cons c0 cs' hnd
          exact hcons.1 b' hb' hid'
        · exact hdang c0 h01 rfl

theorem up_cases {u : List Node} {m : Node} {i : Nat} (h : Up u m i) :
    m.parentId = some i ∨ ∃ a, m.parentId = some a.id ∧ a ∈ u ∧ Up u a i :=
  match h with
  | .direct _ _ hp => Or.inl hp
  | .step _ a _ hp ha hu => Or.inr ⟨a, hp, ha, hu⟩

theorem up_two_siblings (u : List Node) (hids : (u.map Node.id).Nodup) :
    ∀ (m : Node) (i : Nat), Up u m i → ∀ (j : Nat), Up u m j →
      ∀ (n1 n2 : Node) (pk : Option Nat) (cs : List Node),
        n1 ∈ u → n2 ∈ u → n1.id = i → n2.id = j → i ≠ j →
        n1.parentId = pk → n2.parentId = pk → KeyChain u pk cs →
        (∀ c ∈ cs, n1.id ≠ c.id) → (∀ c ∈ cs, n2.id ≠ c.id) → False := by
  intro m i h1
  induction h1 with
  | direct m i hm =>
    intro j h2 n1 n2 pk cs hn1 hn2 hi hj hij hp1 hp2 hkc hc1 hc2
    rcases up_cases h2 with hm2 | ⟨b, hmb, hb, hub⟩
    · rw [hm] at hm2
      injection hm2 with he
      exact hij he
    · rw [hm] at hmb
      injection hmb with he
      have hbn : b = n1 := eq_of_mem_of_id_eq u hids b hb n1 hn1 (by rw [← he, hi])
      rw [hbn] at hub
      rcases up_mem_chain u hids n1 j hub cs (by rw [hp1]; exact hkc) with ⟨b', hb', hid'⟩ | hdang
      · exact hc2 b' hb' (by rw [hj, hid'])
      · exact hdang n2 hn2 hj
  | step m a i hma ha hua ih =>
    intro j h2 n1 n2 pk cs hn1 hn2 hi hj hij hp1 hp2 hkc hc1 hc2
    rcases up_cases h2 with hm2 | ⟨b, hmb, hb, hub⟩
    · rw [hma] at hm2
      injection hm2 with he
      have han : a = n2 := eq_of_mem_of_id_eq u hids a ha n2 hn2 (by rw [he, hj])
      rw [han] at hua
      rcases up_mem_chain u hids n2 i hua cs (by rw [hp2]; exact hkc) with ⟨b', hb', hid'⟩ | hdang
      · exact hc1 b' hb' (by rw [hi, hid'])
      · exact hdang n1 hn1 hi
    · rw [hma] at hmb
      injection hmb with he
      have hab : a = b := eq_of_mem_of_id_eq u hids a ha b hb he
      rw [← hab] at hub
      exact ih j hub n1 n2 pk cs hn1 hn2 hi hj hij hp1 hp2 hkc hc1 hc2

theorem flattenForest_map (l : List Node) (f : Node → List TreeNode) :
    flattenForest (l.map (fun n => TreeNode.mk n (f n)))
      = (l.map (fun n => n :: flattenForest (f n))).flatten := by
  induction l with
  | nil => simp [flattenForest]
  | cons n rest ih =>
    simp only [List.map_cons, flattenForest, List.flatten_cons]
    rw [ih]
    simp

theorem subtreesF_map (l : List Node) (f : Node → List TreeNode) :
    subtreesF (l.map (fun n => TreeNode.mk n (f n)))
      = (l.map (fun n => TreeNode.mk n (f n) :: subtreesF (f n))).flatten := by
  induction l with
  | nil => simp [subtreesF]
  | cons n rest ih =>
    simp only [List.map_cons, subtreesF, List.flatten_cons]
    rw [ih]
    simp

theorem subtree_data_mem : ∀ (G : List TreeNode) (t : TreeNode),
    t ∈ subtreesF G → t.data ∈ flattenForest G
  | [], t, ht => by simp [subtreesF] at ht
  | .mk d c :: ts, t, ht => by
    simp only [subtreesF] at ht
    simp only [flattenForest]
    rcases List.mem_cons.mp ht with h | h
    · rw [h]
      exact List.mem_cons_self _ _
    · rcases List.mem_append.mp h with h2 | h2
      · exact List.mem_cons_of_mem _ (List.mem_append.mpr (Or.inl (subtree_data_mem c t h2)))
      · exact List.mem_cons_of_mem _ (List.mem_append.mpr (Or.inr (subtree_data_mem ts t h2)))

theorem mem_buildForest (u : List Node) :
    ∀ (fuel : Nat) (pk : Option Nat) (m : Node),
      m ∈ flattenForest (buildForest u fuel pk) →
        m ∈ u ∧ (m.parentId = pk ∨ ∃ a ∈ u, a.parentId = pk ∧ Up u m a.id) := by
  intro fuel
  induction fuel with
  | zero => intro pk m hm; simp [buildForest, flattenForest] at hm
  | succ fuel ih =>
    intro pk m hm
    rw [show buildForest u (fuel + 1) pk
        = (sortByOrderIdx (u.filter (childKey pk))).map
            (fun n => TreeNode.mk n (buildForest u fuel (some n.id))) from rfl] at hm
    rw [flattenForest_map] at hm
    rcases List.mem_flatten.mp hm with ⟨blk, hblk, hmblk⟩
    rcases List.mem_map.mp hblk with ⟨n, hn, hneq⟩
    have hnu : n ∈ u := sortFilter_subset u (childKey pk) n hn
    have hnp : n.parentId = pk := of_decide_eq_true (sortFilter_pred u (childKey pk) n hn)
    rw [← hneq] at hmblk
    rcases List.mem_cons.mp hmblk with h | h
    · rw [h]
      exact ⟨hnu, Or.inl hnp⟩
    · rcases ih (some n.id) m h with ⟨hmu, hrest⟩
      refine ⟨hmu, Or.inr ?_⟩
      rcases hrest with hdir | ⟨a, hau, hap, hup⟩
      · exact ⟨n, hnu, hnp, Up.direct m n.id hdir⟩
      · exact ⟨n, hnu, hnp, Up.extend hup hau hap⟩

theorem mem_sub_up (u : List Node) (fuel : Nat) (i : Nat) (m : Node)
    (hm : m ∈ flattenForest (buildForest u fuel (some i))) : m ∈ u ∧ Up u m i := by
  rcases mem_buildForest u fuel (some i) m hm with ⟨hmu, hrest⟩
  refine ⟨hmu, ?_⟩
  rcases hrest with hdir | ⟨a, hau, hap, hup⟩
  · exact Up.direct m i hdir
  · exact Up.extend hup hau hap

theorem parent_mem_buildForest (u : List Node) :
    ∀ (fuel : Nat) (pk : Option Nat) (m : Node),
      m ∈ flattenForest (buildForest u fuel pk) →
        m.parentId = pk
        ∨ ∃ x ∈ flattenForest (buildForest u fuel pk), m.parentId = some x.id := by
  intro fuel
  induction fuel with
  | zero => intro pk m hm; simp [buildForest, flattenForest] at hm
  | succ fuel ih =>
    intro pk m hm
    rw [show buildForest u (fuel + 1) pk
        = (sortByOrderIdx (u.filter (childKey pk))).map
            (fun n => TreeNode.mk n (buildForest u fuel (some n.id))) from rfl] at hm ⊢
    rw [flattenForest_map] at hm ⊢
    rcases List.mem_flatten.mp hm with ⟨blk, hblk, hmblk⟩
    rcases List.mem_map.mp hblk with ⟨n, hn, hneq⟩
    have hnp : n.parentId = pk := of_decide_eq_true (sortFilter_pred u (childKey pk) n hn)
    rw [← hneq] at hmblk
    have hblockmem : ∀ y, y ∈ (n :: flattenForest (buildForest u fuel (some n.id))) →
        y ∈ ((sortByOrderIdx (u.filter (childKey pk))).map
          (fun x => x :: flattenForest (buildForest u fuel (some x.id)))).flatten := by
      intro y hy
      exact List.mem_flatten.mpr ⟨_, List.mem_map.mpr ⟨n, hn, rfl⟩, hy⟩
    rcases List.mem_cons.mp hmblk with h | h
    · left
      rw [h]
      exact hnp
    · rcases ih (some n.id) m h with hdir | ⟨x, hx, hxp⟩
      · right
        exact ⟨n, hblockmem n (List.mem_cons_self _ _), hdir⟩
      · right
        exact ⟨x, hblockmem x (List.mem_cons_of_mem n hx), hxp⟩

theorem nodup_flatten_buildForest (u : List Node) (hids : (u.map Node.id).Nodup) :
    ∀ (fuel : Nat) (pk : Option Nat) (cs : List Node),
      KeyChain u pk cs → (cs.map Node.id).Nodup →
      ((flattenForest (buildForest u fuel pk)).map Node.id).Nodup
      ∧ ∀ m ∈ flattenForest (buildForest u fuel pk), ∀ c ∈ cs, m.id ≠ c.id := by
  intro fuel
  induction fuel with
  | zero =>
    intro pk cs _ _
    constructor
    · simp [buildForest, flattenForest]
    · intro m hm
      simp [buildForest, flattenForest] at hm
  | succ fuel ih =>
    intro pk cs hkc hnd
    have hssnd : ((sortByOrderIdx (u.filter (childKey pk))).map Node.id).Nodup :=
      sortFilter_nodup_ids u (childKey pk) hids
    have hssu : ∀ n ∈ sortByOrderIdx (u.filter (childKey pk)), n ∈ u :=
      sortFilter_subset u (childKey pk)
    have hssp : ∀ n ∈ sortByOrderIdx (u.filter (childKey pk)), n.parentId = pk :=
      fun n hn => of_decide_eq_true (sortFilter_pred u (childKey pk) n hn)
    have hchain : ∀ n ∈ sortByOrderIdx (u.filter (childKey pk)),
        KeyChain u (some n.id) (n :: cs) := by
      intro n hn
      refine ⟨hssu n hn, rfl, ?_⟩
      rw [hssp n hn]
      exact hkc
    have hnotin : ∀ n ∈ sortByOrderIdx (u.filter (childKey pk)), ∀ c ∈ cs, n.id ≠ c.id :=
      fun n hn => sib_id_not_in_chain u hids cs pk hkc hnd n (hssu n hn) (hssp n hn)
    have hndn : ∀ n ∈ sortByOrderIdx (u.filter (childKey pk)),
        ((n :: cs).map Node.id).Nodup := by
      intro n hn
      rw [List.map_cons, List.nodup_cons]
      refine ⟨?_, hnd⟩
      intro hmem
      rcases List.mem_map.mp hmem with ⟨c, hc, hcid⟩
      exact hnotin n hn c hc hcid.symm
    have hIH : ∀ n ∈ sortByOrderIdx (u.filter (childKey pk)),
        ((flattenForest (buildForest u fuel (some n.id))).map Node.id).Nodup
        ∧ ∀ m ∈ flattenForest (buildForest u fuel (some n.id)),
            ∀ c ∈ n :: cs, m.id ≠ c.id :=
      fun n hn => ih (some n.id) (n :: cs) (hchain n hn) (hndn n hn)
    have hunf : flattenForest (buildForest u (fuel + 1) pk)
        = ((sortByOrderIdx (u.filter (childKey pk))).map
            (fun n => n :: flattenForest (buildForest u fuel (some n.id)))).flatten := by
      rw [show buildForest u (fuel + 1) pk
          = (sortByOrderIdx (u.filter (childKey pk))).map
              (fun n => TreeNode.mk n (buildForest u fuel (some n.id))) from rfl]
      exact flattenForest_map _ _
    constructor
    · rw [hunf, List.map_flatten, List.map_map]
      rw [List.nodup_flatten]
      constructor
      · intro l hl
        rcases List.mem_map.mp hl with ⟨n, hn, hneq⟩
        rw [← hneq]
        show ((n :: flattenForest (buildForest u fuel (some n.id))).map Node.id).Nodup
        rw [List.map_cons, List.nodup_cons]
        refine ⟨?_, (hIH n hn).1⟩
        intro hmem
        rcases List.mem_map.mp hmem with ⟨m, hm, hmid⟩
        exact (hIH n hn).2 m hm n (List.mem_cons_self n cs) hmid
      · rw [List.pairwise_map]
        refine (pairwise_ne_id_of_nodup _ hssnd).imp_of_mem ?_
        intro n1 n2 h1 h2 hne12
        intro a ha1 ha2
        show False
        simp only [Function.comp] at ha1 ha2
        have hm1 : a ∈ (n1 :: flattenForest (buildForest u fuel (some n1.id))).map Node.id := ha1
        have hm2 : a ∈ (n2 :: flattenForest (buildForest u fuel (some n2.id))).map Node.id := ha2
        rw [List.map_cons] at hm1 hm2
        rcases List.mem_cons.mp hm1 with hA | hA <;> rcases List.mem_cons.mp hm2 with hB | hB
        · exact hne12 (hA ▸ hB ▸ rfl)
        · rcases List.mem_map.mp hB with ⟨m, hm, hmid⟩
          rcases mem_sub_up u fuel n2.id m hm with ⟨hmu, hup⟩
          have hmn1 : m = n1 :=
            eq_of_mem_of_id_eq u hids m hmu n1 (hssu n1 h1) (by rw [hmid, ← hA])
          rw [hmn1] at hup
          rcases up_mem_chain u hids n1 n2.id hup cs (by rw [hssp n1 h1]; exact hkc)
            with ⟨b, hb, hbid⟩ | hdang
          · exact hnotin n2 h2 b hb hbid.symm
          · exact hdang n2 (hssu n2 h2) rfl
        · rcases List.mem_map.mp hA with ⟨m, hm, hmid⟩
          rcases mem_sub_up u fuel n1.id m hm with ⟨hmu, hup⟩
          have hmn2 : m = n2 :=
            eq_of_mem_of_id_eq u hids m hmu n2 (hssu n2 h2) (by rw [hmid, ← hB])
          rw [hmn2] at hup
          rcases up_mem_chain u hids n2 n1.id hup cs (by rw [hssp n2 h2]; exact hkc)
            with ⟨b, hb, hbid⟩ | hdang
          · exact hnotin n1 h1 b hb hbid.symm
          · exact hdang n1 (hssu n1 h1) rfl
        · rcases List.mem_map.mp hA with ⟨m1, hmm1, hmid1⟩
          rcases List.mem_map.mp hB with ⟨m2, hmm2, hmid2⟩
          rcases mem_sub_up u fuel n1.id m1 hmm1 with ⟨hm1u, hup1⟩
          rcases mem_sub_up u fuel n2.id m2 hmm2 with ⟨hm2u, hup2⟩
          have hm12 : m1 = m2 :=
            eq_of_mem_of_id_eq u hids m1 hm1u m2 hm2u (by rw [hmid1, hmid2])
          rw [hm12] at hup1
          exact up_two_siblings u hids m2 n1.id hup1 n2.id hup2 n1 n2 pk cs
            (hssu n1 h1) (hssu n2 h2) rfl rfl (fun he => hne12 he)
            (hssp n1 h1) (hssp n2 h2) hkc (hnotin n1 h1) (hnotin n2 h2)
    · intro m hm c hc
      rw [hunf] at hm
      rcases List.mem_flatten.mp hm with ⟨blk, hblk, hmblk⟩
      rcases List.mem_map.mp hblk with ⟨n, hn, hneq⟩
      rw [← hneq] at hmblk
      rcases List.mem_cons.mp hmblk with h | h
      · rw [h]
        exact hnotin n hn c hc
      · exact (hIH n hn).2 m h c (List.mem_cons_of_mem n hc)

theorem flatten_all_nil {α : Type} (l : List Node) (f : Node → List α)
    (h : ∀ x ∈ l, f x = []) : (l.map f).flatten = [] := by
  induction l with
  | nil => rfl
  | cons a rest ih =>
    simp only [List.map_cons, List.flatten_cons]
    rw [h a (List.mem_cons_self a rest), ih (fun x hx => h x (List.mem_cons_of_mem a hx))]
    rfl

theorem flatten_eq_of_single {α : Type} (l : List Node) (f : Node → List α) (n : Node)
    (hn : n ∈ l) (hnd : l.Nodup) (h0 : ∀ x ∈ l, x ≠ n → f x = []) :
    (l.map f).flatten = f n := by
  induction l with
  | nil => simp at hn
  | cons a rest ih =>
    have hcons := List.nodup_cons.mp hnd
    simp only [List.map_cons, List.flatten_cons]
    rcases List.mem_cons.mp hn with h | h
    · rw [← h]
      have hrest : ∀ x ∈ rest, f x = [] := by
        intro x hx
        apply h0 x (List.mem_cons_of_mem a hx)
        intro he
        exact hcons.1 ((he.trans h) ▸ hx)
      rw [flatten_all_nil rest f hrest]
      simp
    · rw [h0 a (List.mem_cons_self a rest) (fun he => hcons.1 (he ▸ h))]
      rw [ih h hcons.2 (fun x hx => h0 x (List.mem_cons_of_mem a hx))]
      rfl

theorem flatten_map_singleton (l : List Node) : (l.map (fun n => [n])).flatten = l := by
  induction l with
  | nil => rfl
  | cons a rest ih =>
    simp only [List.map_cons, List.flatten_cons, ih]
    rfl

/-- The records of the forest under `pk` whose `parentId` is `pk` are
exactly the top-level siblings, in display order. -/
theorem filter_flatten_key (u : List Node) (hids : (u.map Node.id).Nodup) :
    ∀ (fuel : Nat) (pk : Option Nat) (cs : List Node),
      KeyChain u pk cs → (cs.map Node.id).Nodup →
      (flattenForest (buildForest u fuel pk)).filter (childKey pk)
        = forestData (buildForest u fuel pk) := by
  intro fuel
  induction fuel with
  | zero =>
    intro pk cs _ _
    simp [buildForest, flattenForest, forestData]
  | succ fuel ih =>
    intro pk cs hkc hnd
    have hssu : ∀ n ∈ sortByOrderIdx (u.filter (childKey pk)), n ∈ u :=
      sortFilter_subset u (childKey pk)
    have hssp : ∀ n ∈ sortByOrderIdx (u.filter (childKey pk)), n.parentId = pk :=
      fun n hn => of_decide_eq_true (sortFilter_pred u (childKey pk) n hn)
    have hnotin : ∀ n ∈ sortByOrderIdx (u.filter (childKey pk)), ∀ c ∈ cs, n.id ≠ c.id :=
      fun n hn => sib_id_not_in_chain u hids cs pk hkc hnd n (hssu n hn) (hssp n hn)
    have hunf : flattenForest (buildForest u (fuel + 1) pk)
        = ((sortByOrderIdx (u.filter (childKey pk))).map
            (fun n => n :: flattenForest (buildForest u fuel (some n.id)))).flatten := by
      rw [show buildForest u (fuel + 1) pk
          = (sortByOrderIdx (u.filter (childKey pk))).map
              (fun n => TreeNode.mk n (buildForest u fuel (some n.id))) from rfl]
      exact flattenForest_map _ _
    rw [hunf, List.filter_flatten, List.map_map]
    have hblocks : ∀ n ∈ sortByOrderIdx (u.filter (childKey pk)),
        ((n :: flattenForest (buildForest u fuel (some n.id))).filter (childKey pk)) = [n] := by
      intro n hn
      rw [List.filter_cons]
      have hp : childKey pk n = true := decide_eq_true (hssp n hn)
      rw [if_pos hp]
      have hsub : (flattenForest (buildForest u fuel (some n.id))).filter (childKey pk) = [] := by
        rw [List.filter_eq_nil_iff]
        intro m hm hcm
        have hmp : m.parentId = pk := of_decide_eq_true hcm
        rcases mem_sub_up u fuel n.id m hm with ⟨_, hup⟩
        rcases up_mem_chain u hids m n.id hup cs (by rw [hmp]; exact hkc)
          with ⟨b, hb, hbid⟩ | hdang
        · exact hnotin n hn b hb hbid.symm
        · exact hdang n (hssu n hn) rfl
      rw [hsub]
    have hmapeq : (sortByOrderIdx (u.filter (childKey pk))).map
          ((fun l => List.filter (childKey pk) l) ∘ (fun n => n :: flattenForest (buildForest u fuel (some n.id))))
        = (sortByOrderIdx (u.filter (childKey pk))).map (fun n => [n]) := by
      apply List.map_congr_left
      intro n hn
      exact hblocks n hn
    rw [hmapeq, flatten_map_singleton]
    rw [show buildForest u (fuel + 1) pk
        = (sortByOrderIdx (u.filter (childKey pk))).map
            (fun n => TreeNode.mk n (buildForest u fuel (some n.id))) from rfl]
    unfold forestData
    rw [List.map_map]
    have hcomp : (TreeNode.data ∘ fun n : Node => TreeNode.mk n (buildForest u fuel (some n.id)))
        = fun n : Node => n := by
      funext n
      rfl
    rw [hcomp, List.map_id']

theorem forestData_buildForest_succ (u : List Node) (fuel : Nat) (pk : Option Nat) :
    forestData (buildForest u (fuel + 1) pk) = sortByOrderIdx (u.filter (childKey pk)) := by
  rw [show buildForest u (fuel + 1) pk
      = (sortByOrderIdx (u.filter (childKey pk))).map
          (fun n => TreeNode.mk n (buildForest u fuel (some n.id))) from rfl]
  unfold forestData
  rw [List.map_map]
  have hcomp : (TreeNode.data ∘ fun n : Node => TreeNode.mk n (buildForest u fuel (some n.id)))
      = fun n : Node => n := by
    funext n
    rfl
  rw [hcomp, List.map_id']

/-- The records of the forest under `pk` whose `parentId` is the id of a
tree position `t` of that forest are exactly `t`'s children, in display
order. -/
theorem filter_flatten_subtree (u : List Node) (hids : (u.map Node.id).Nodup) :
    ∀ (fuel : Nat) (pk : Option Nat) (cs : List Node),
      KeyChain u pk cs → (cs.map Node.id).Nodup →
      ∀ t ∈ subtreesF (buildForest u fuel pk),
        (flattenForest (buildForest u fuel pk)).filter (childKey (some t.data.id))
          = forestData t.children := by
  intro fuel
  induction fuel with
  | zero =>
    intro pk cs _ _ t ht
    simp [buildForest, subtreesF] at ht
  | succ fuel ih =>
    intro pk cs hkc hnd t ht
    have hssu : ∀ n ∈ sortByOrderIdx (u.filter (childKey pk)), n ∈ u :=
      sortFilter_subset u (childKey pk)
    have hssp : ∀ n ∈ sortByOrderIdx (u.filter (childKey pk)), n.parentId = pk :=
      fun n hn => of_decide_eq_true (sortFilter_pred u (childKey pk) n hn)
    have hssnd : ((sortByOrderIdx (u.filter (childKey pk))).map Node.id).Nodup :=
      sortFilter_nodup_ids u (childKey pk) hids
    have hnotin : ∀ n ∈ sortByOrderIdx (u.filter (childKey pk)), ∀ c ∈ cs, n.id ≠ c.id :=
      fun n hn => sib_id_not_in_chain u hids cs pk hkc hnd n (hssu n hn) (hssp n hn)
    have hchain : ∀ n ∈ sortByOrderIdx (u.filter (childKey pk)),
        KeyChain u (some n.id) (n :: cs) := by
      intro n hn
      refine ⟨hssu n hn, rfl, ?_⟩
      rw [hssp n hn]
      exact hkc
    have hndn : ∀ n ∈ sortByOrderIdx (u.filter (childKey pk)),
        ((n :: cs).map Node.id).Nodup := by
      intro n hn
      rw [List.map_cons, List.nodup_cons]
      refine ⟨?_, hnd⟩
      intro hmem
      rcases List.mem_map.mp hmem with ⟨c, hc, hcid⟩
      exact hnotin n hn c hc hcid.symm
    have hunfB : buildForest u (fuel + 1) pk
        = (sortByOrderIdx (u.filter (childKey pk))).map
            (fun n => TreeNode.mk n (buildForest u fuel (some n.id))) := rfl
    have hunf : flattenForest (buildForest u (fuel + 1) pk)
        = ((sortByOrderIdx (u.filter (childKey pk))).map
            (fun n => n :: flattenForest (buildForest u fuel (some n.id)))).flatten := by
      rw [hunfB]
      exact flattenForest_map _ _
    have hsubt : t ∈ ((sortByOrderIdx (u.filter (childKey pk))).map
        (fun n => TreeNode.mk n (buildForest u fuel (some n.id))
          :: subtreesF (buildForest u fuel (some n.id)))).flatten := by
      rw [hunfB, subtreesF_map] at ht
      exact ht
    rcases List.mem_flatten.mp hsubt with ⟨blk, hblk, htblk⟩
    rcases List.mem_map.mp hblk with ⟨n, hn, hneq⟩
    rw [← hneq] at htblk
    have hblockflat : ∀ y, y ∈ (n :: flattenForest (buildForest u fuel (some n.id))) →
        y ∈ flattenForest (buildForest u (fuel + 1) pk) := by
      intro y hy
      rw [hunf]
      exact List.mem_flatten.mpr ⟨_, List.mem_map.mpr ⟨n, hn, rfl⟩, hy⟩
    have htd_mem : t.data ∈ flattenForest (buildForest u (fuel + 1) pk) := by
      rcases List.mem_cons.mp htblk with h | h
      · apply hblockflat
        rw [h]
        exact List.mem_cons_self _ _
      · apply hblockflat
        exact List.mem_cons_of_mem n (subtree_data_mem _ t h)
    have htd_u : t.data ∈ u := (mem_buildForest u (fuel + 1) pk t.data htd_mem).1
    have hpkne : pk ≠ some t.data.id := by
      intro heq
      cases cs with
      | nil =>
        rw [heq] at hkc
        exact hkc t.data htd_u rfl
      | cons c0 cs' =>
        have hkc2 := hkc
        rw [heq] at hkc2
        obtain ⟨_, h02, _⟩ := hkc2
        exact (nodup_flatten_buildForest u hids (fuel + 1) pk (c0 :: cs')
          hkc hnd).2 t.data htd_mem c0 (List.mem_cons_self c0 cs') h02.symm
    have hUp : ∀ m : Node, m.parentId = some t.data.id → Up u m n.id := by
      intro m hmp
      rcases List.mem_cons.mp htblk with h | h
      · have hdn : t.data = n := by rw [h]; rfl
        exact Up.direct m n.id (by rw [hmp, hdn])
      · have htd_flat : t.data ∈ flattenForest (buildForest u fuel (some n.id)) :=
          subtree_data_mem _ t h
        rcases mem_sub_up u fuel n.id t.data htd_flat with ⟨htdu, htup⟩
        exact Up.trans (Up.direct m t.data.id hmp) htdu htup
    have hother : ∀ x ∈ sortByOrderIdx (u.filter (childKey pk)), x ≠ n →
        ((x :: flattenForest (buildForest u fuel (some x.id))).filter
          (childKey (some t.data.id))) = [] := by
      intro x hx hxn
      have hxid : x.id ≠ n.id := by
        intro he
        exact hxn (eq_of_mem_of_id_eq _ hssnd x hx n hn he)
      rw [List.filter_cons]
      have hhead : childKey (some t.data.id) x = false := by
        apply decide_eq_false
        rw [hssp x hx]
        intro he
        exact hpkne he
      rw [if_neg (by rw [hhead]; exact Bool.false_ne_true)]
      rw [List.filter_eq_nil_iff]
      intro m hm hcm
      have hmp : m.parentId = some t.data.id := of_decide_eq_true hcm
      rcases mem_sub_up u fuel x.id m hm with ⟨hmu, hupx⟩
      have hupn : Up u m n.id := hUp m hmp
      exact up_two_siblings u hids m x.id hupx n.id hupn x n pk cs
        (hssu x hx) (hssu n hn) rfl rfl hxid (hssp x hx) (hssp n hn) hkc
        (hnotin x hx) (hnotin n hn)
    have hblockn : ((n :: flattenForest (buildForest u fuel (some n.id))).filter
        (childKey (some t.data.id)))
        = forestData t.children := by
      rw [List.filter_cons]
      have hhead : childKey (some t.data.id) n = false := by
        apply decide_eq_false
        rw [hssp n hn]
        intro he
        exact hpkne he
      rw [if_neg (by rw [hhead]; exact Bool.false_ne_true)]
      rcases List.mem_cons.mp htblk with h | h
      · have hdn : t.data = n := by rw [h]; rfl
        have hch : t.children = buildForest u fuel (some n.id) := by rw [h]; rfl
        rw [hdn, hch]
        exact filter_flatten_key u hids fuel (some n.id) (n :: cs) (hchain n hn) (hndn n hn)
      · exact ih (some n.id) (n :: cs) (hchain n hn) (hndn n hn) t h
    rw [hunf, List.filter_flatten, List.map_map]
    have hfin := flatten_eq_of_single (sortByOrderIdx (u.filter (childKey pk)))
      (fun x => ((x :: flattenForest (buildForest u fuel (some x.id))).filter
        (childKey (some t.data.id)))) n hn (hssnd.of_map Node.id) hother
    rw [show ((fun l => List.filter (childKey (some t.data.id)) l)
        ∘ fun x : Node => x :: flattenForest (buildForest u fuel (some x.id)))
        = (fun x : Node => ((x :: flattenForest (buildForest u fuel (some x.id))).filter
            (childKey (some t.data.id)))) from rfl]
    rw [hfin]
    show ((n :: flattenForest (buildForest u fuel (some n.id))).filter
      (childKey (some t.data.id))) = forestData t.children
    exact hblockn

theorem sorted_forestData_buildForest (u : List Node) (fuel : Nat) (pk : Option Nat) :
    List.Sorted ordLe (forestData (buildForest u fuel pk)) := by
  cases fuel with
  | zero => simp [buildForest, forestData]
  | succ f =>
    rw [forestData_buildForest_succ]
    exact List.sorted_insertionSort ordLe _

theorem sorted_subtree_children (u : List Node) :
    ∀ (fuel : Nat) (pk : Option Nat) (t : TreeNode), t ∈ subtreesF (buildForest u fuel pk) →
      List.Sorted ordLe (forestData t.children) := by
  intro fuel
  induction fuel with
  | zero => intro pk t ht; simp [buildForest, subtreesF] at ht
  | succ fuel ih =>
    intro pk t ht
    rw [show buildForest u (fuel + 1) pk
        = (sortByOrderIdx (u.filter (childKey pk))).map
            (fun n => TreeNode.mk n (buildForest u fuel (some n.id))) from rfl,
      subtreesF_map] at ht
    rcases List.mem_flatten.mp ht with ⟨blk, hblk, htblk⟩
    rcases List.mem_map.mp hblk with ⟨n, hn, hneq⟩
    rw [← hneq] at htblk
    rcases List.mem_cons.mp htblk with h | h
    · have hch : t.children = buildForest u fuel (some n.id) := by rw [h]; rfl
      rw [hch]
      exact sorted_forestData_buildForest u fuel (some n.id)
    · exact ih (some n.id) t h

theorem mem_subtreesF_of_mem : ∀ (G : List TreeNode) (t : TreeNode), t ∈ G → t ∈ subtreesF G
  | [], t, ht => by simp at ht
  | .mk d c :: ts, t, ht => by
    simp only [subtreesF]
    rcases List.mem_cons.mp ht with h | h
    · rw [h]
      exact List.mem_cons_self _ _
    · exact List.mem_cons_of_mem _ (List.mem_append.mpr (Or.inr (mem_subtreesF_of_mem ts t h)))

theorem subtreesF_children_subset : ∀ (G : List TreeNode) (t : TreeNode), t ∈ G →
    ∀ s ∈ subtreesF t.children, s ∈ subtreesF G
  | [], t, ht, s, hs => by simp at ht
  | .mk d c :: ts, t, ht, s, hs => by
    simp only [subtreesF]
    rcases List.mem_cons.mp ht with h | h
    · have hc : t.children = c := by rw [h]; rfl
      rw [hc] at hs
      exact List.mem_cons_of_mem _ (List.mem_append.mpr (Or.inl hs))
    · exact List.mem_cons_of_mem _
        (List.mem_append.mpr (Or.inr (subtreesF_children_subset ts t h s hs)))

theorem flatten_length_ge : ∀ (G : List TreeNode) (t : TreeNode), t ∈ G →
    (flattenForest t.children).length + 1 ≤ (flattenForest G).length
  | [], t, ht => by simp at ht
  | .mk d c :: ts, t, ht => by
    simp only [flattenForest, List.length_cons, List.length_append]
    rcases List.mem_cons.mp ht with h | h
    · have hc : t.children = c := by rw [h]; rfl
      rw [hc]
      omega
    · have := flatten_length_ge ts t h
      omega

theorem dedupeValue_id (n : Node) (rest : List Node) : (dedupeValue n rest).id = n.id := by
  unfold dedupeValue
  cases hfind : rest.reverse.find? (fun x => decide (x.id = n.id)) with
  | none => rfl
  | some m =>
    have := List.find?_some hfind
    exact of_decide_eq_true this

theorem dedupe_mem_ids : ∀ (fuel : Nat) (l : List Node),
    ∀ x ∈ dedupeById fuel l, x.id ∈ l.map Node.id := by
  intro fuel
  induction fuel with
  | zero => intro l x hx; simp [dedupeById] at hx
  | succ fuel ih =>
    intro l x hx
    cases l with
    | nil => simp [dedupeById] at hx
    | cons n rest =>
      rw [show dedupeById (fuel + 1) (n :: rest)
          = dedupeValue n rest :: dedupeById fuel (rest.filter (fun y => decide (y.id ≠ n.id)))
          from rfl] at hx
      rcases List.mem_cons.mp hx with h | h
      · rw [h, List.map_cons]
        rw [dedupeValue_id]
        exact List.mem_cons_self _ _
      · have := ih _ x h
        rcases List.mem_map.mp this with ⟨y, hy, hyid⟩
        rw [List.map_cons]
        exact List.mem_cons_of_mem _
          (List.mem_map.mpr ⟨y, List.mem_of_mem_filter hy, hyid⟩)

theorem dedupe_nodup_ids : ∀ (fuel : Nat) (l : List Node),
    ((dedupeById fuel l).map Node.id).Nodup := by
  intro fuel
  induction fuel with
  | zero => intro l; simp [dedupeById]
  | succ fuel ih =>
    intro l
    cases l with
    | nil => simp [dedupeById]
    | cons n rest =>
      rw [show dedupeById (fuel + 1) (n :: rest)
          = dedupeValue n rest :: dedupeById fuel (rest.filter (fun y => decide (y.id ≠ n.id)))
          from rfl]
      rw [List.map_cons, List.nodup_cons, dedupeValue_id]
      refine ⟨?_, ih _⟩
      intro hmem
      rcases List.mem_map.mp hmem with ⟨x, hx, hxid⟩
      have := dedupe_mem_ids fuel _ x hx
      rcases List.mem_map.mp this with ⟨y, hy, hyid⟩
      have hyp := (List.mem_filter.mp hy).2
      have hyne : y.id ≠ n.id := of_decide_eq_true hyp
      rw [hyid, hxid] at hyne
      exact hyne rfl

theorem dedupe_eq_self : ∀ (fuel : Nat) (l : List Node),
    (l.map Node.id).Nodup → l.length ≤ fuel → dedupeById fuel l = l := by
  intro fuel
  induction fuel with
  | zero =>
    intro l _ hlen
    have : l = [] := List.length_eq_zero.mp (Nat.le_zero.mp hlen)
    rw [this]
    rfl
  | succ fuel ih =>
    intro l hnd hlen
    cases l with
    | nil => rfl
    | cons n rest =>
      have hcons := nodup_ids_cons n rest hnd
      rw [show dedupeById (fuel + 1) (n :: rest)
          = dedupeValue n rest :: dedupeById fuel (rest.filter (fun y => decide (y.id ≠ n.id)))
          from rfl]
      have hval : dedupeValue n rest = n := by
        unfold dedupeValue
        have hnone : rest.reverse.find? (fun x => decide (x.id = n.id)) = none := by
          rw [List.find?_eq_none]
          intro x hx
          simp only [decide_eq_true_eq]
          exact hcons.1 x (List.mem_reverse.mp hx)
        rw [hnone]
      have hfilt : rest.filter (fun y => decide (y.id ≠ n.id)) = rest := by
        rw [List.filter_eq_self]
        intro y hy
        exact decide_eq_true (hcons.1 y hy)
      rw [hval, hfilt]
      rw [ih rest hcons.2 (by simpa using Nat.succ_le_succ_iff.mp (by simpa using hlen))]

theorem dedupeByIdAll_eq_self (l : List Node) (h : (l.map Node.id).Nodup) :
    dedupeByIdAll l = l :=
  dedupe_eq_self l.length l h (le_refl _)

theorem buildTree_def (nodes : List Node) :
    buildTree nodes
      = buildForest (dedupeByIdAll nodes) ((dedupeByIdAll nodes).length + 1) none := rfl

/-- Rebuilding from a flat list that matches a forest exactly — same root
group, same (sorted) sibling groups at every position — reproduces the
forest. -/
theorem rebuild_buildForest (L : List Node) :
    ∀ (fuel : Nat) (G : List TreeNode) (pk : Option Nat),
      (flattenForest G).length < fuel →
      L.filter (childKey pk) = forestData G →
      List.Sorted ordLe (forestData G) →
      (∀ t ∈ subtreesF G, L.filter (childKey (some t.data.id)) = forestData t.children
        ∧ List.Sorted ordLe (forestData t.children)) →
      buildForest L fuel pk = G := by
  intro fuel
  induction fuel with
  | zero =>
    intro G pk hlen _ _ _
    exact absurd hlen (Nat.not_lt_zero _)
  | succ fuel ih =>
    intro G pk hlen hroot hsort hsub
    rw [show buildForest L (fuel + 1) pk
        = (sortByOrderIdx (L.filter (childKey pk))).map
            (fun n => TreeNode.mk n (buildForest L fuel (some n.id))) from rfl]
    rw [hroot]
    rw [show sortByOrderIdx (forestData G) = List.insertionSort ordLe (forestData G) from rfl]
    rw [List.Sorted.insertionSort_eq hsort]
    unfold forestData
    rw [List.map_map]
    have hstep : ∀ t ∈ G,
        (TreeNode.mk t.data (buildForest L fuel (some t.data.id))) = t := by
      intro t ht
      cases t with
      | mk d c =>
        have hd : (TreeNode.mk d c).data = d := rfl
        have hc : (TreeNode.mk d c).children = c := rfl
        rw [hd]
        have hlen' : (flattenForest c).length < fuel := by
          have h1 := flatten_length_ge G (TreeNode.mk d c) ht
          rw [hc] at h1
          omega
        have hts := hsub (TreeNode.mk d c) (mem_subtreesF_of_mem G _ ht)
        rw [hd, hc] at hts
        have hrec := ih c (some d.id) hlen' hts.1 hts.2
          (fun s hs => hsub s (subtreesF_children_subset G _ ht s (by rw [hc]; exact hs)))
        rw [hrec]
    calc G.map ((fun n => TreeNode.mk n (buildForest L fuel (some n.id))) ∘ TreeNode.data)
        = G.map (fun t => t) := List.map_congr_left (fun t ht => hstep t ht)
      _ = G := List.map_id' G

/-- **C7.** The flatten/build round trip: rebuilding the tree from its
pre-order flattening reproduces the tree exactly — same parent/child
membership and same sibling order — for every flat input list. -/
theorem buildTree_flatten_roundtrip (flat : List Node) :
    buildTree (flattenTree (buildTree flat)) = buildTree flat := by
  have hu : ((dedupeByIdAll flat).map Node.id).Nodup :=
    dedupe_nodup_ids flat.length flat
  have hchain0 : KeyChain (dedupeByIdAll flat) none [] := rfl
  have hnd0 : (([] : List Node).map Node.id).Nodup := by simp
  have hLnd := (nodup_flatten_buildForest (dedupeByIdAll flat) hu
    ((dedupeByIdAll flat).length + 1) none [] hchain0 hnd0).1
  rw [buildTree_def flat, buildTree_def]
  rw [show flattenTree (buildForest (dedupeByIdAll flat) ((dedupeByIdAll flat).length + 1) none)
      = flattenForest (buildForest (dedupeByIdAll flat) ((dedupeByIdAll flat).length + 1) none)
      from rfl]
  rw [dedupeByIdAll_eq_self _ hLnd]
  apply rebuild_buildForest
  · omega
  · exact filter_flatten_key (dedupeByIdAll flat) hu ((dedupeByIdAll flat).length + 1)
      none [] hchain0 hnd0
  · exact sorted_forestData_buildForest _ _ _
  · intro t ht
    exact ⟨filter_flatten_subtree (dedupeByIdAll flat) hu ((dedupeByIdAll flat).length + 1)
        none [] hchain0 hnd0 t ht,
      sorted_subtree_children _ _ _ t ht⟩

theorem chain_length_le (u : List Node) (cs : List Node)
    (hnd : (cs.map Node.id).Nodup) (hsub : ∀ c ∈ cs, c ∈ u) : cs.length ≤ u.length := by
  have hsub' : (cs.map Node.id) ⊆ (u.map Node.id) := by
    intro x hx
    rcases List.mem_map.mp hx with ⟨c, hc, hcid⟩
    exact List.mem_map.mpr ⟨c, hsub c hc, hcid⟩
  have := List.Subperm.length_le (List.subperm_of_subset hnd hsub')
  simpa using this

/-- Every sibling group of the built forest, at every depth, consists of
exactly the records whose `parentId` is the group owner's id, sorted by
`orderIdx`; the fuel bound guarantees no reachable level is truncated. -/
theorem children_complete (u : List Node) (hids : (u.map Node.id).Nodup) :
    ∀ (fuel : Nat) (pk : Option Nat) (cs : List Node),
      KeyChain u pk cs → (cs.map Node.id).Nodup → u.length + 1 ≤ fuel + cs.length →
      ∀ t ∈ subtreesF (buildForest u fuel pk),
        forestData t.children = sortByOrderIdx (u.filter (childKey (some t.data.id))) := by
  intro fuel
  induction fuel with
  | zero =>
    intro pk cs _ _ _ t ht
    simp [buildForest, subtreesF] at ht
  | succ fuel ih =>
    intro pk cs hkc hnd hfuel t ht
    have hssu : ∀ n ∈ sortByOrderIdx (u.filter (childKey pk)), n ∈ u :=
      sortFilter_subset u (childKey pk)
    have hssp : ∀ n ∈ sortByOrderIdx (u.filter (childKey pk)), n.parentId = pk :=
      fun n hn => of_decide_eq_true (sortFilter_pred u (childKey pk) n hn)
    have hnotin : ∀ n ∈ sortByOrderIdx (u.filter (childKey pk)), ∀ c ∈ cs, n.id ≠ c.id :=
      fun n hn => sib_id_not_in_chain u hids cs pk hkc hnd n (hssu n hn) (hssp n hn)
    have hchain : ∀ n ∈ sortByOrderIdx (u.filter (childKey pk)),
        KeyChain u (some n.id) (n :: cs) := by
      intro n hn
      refine ⟨hssu n hn, rfl, ?_⟩
      rw [hssp n hn]
      exact hkc
    have hndn : ∀ n ∈ sortByOrderIdx (u.filter (childKey pk)),
        ((n :: cs).map Node.id).Nodup := by
      intro n hn
      rw [List.map_cons, List.nodup_cons]
      refine ⟨?_, hnd⟩
      intro hmem
      rcases List.mem_map.mp hmem with ⟨c, hc, hcid⟩
      exact hnotin n hn c hc hcid.symm
    rw [show buildForest u (fuel + 1) pk
        = (sortByOrderIdx (u.filter (childKey pk))).map
            (fun n => TreeNode.mk n (buildForest u fuel (some n.id))) from rfl,
      subtreesF_map] at ht
    rcases List.mem_flatten.mp ht with ⟨blk, hblk, htblk⟩
    rcases List.mem_map.mp hblk with ⟨n, hn, hneq⟩
    rw [← hneq] at htblk
    rcases List.mem_cons.mp htblk with h | h
    · have hdn : t.data = n := by rw [h]; rfl
      have hch : t.children = buildForest u fuel (some n.id) := by rw [h]; rfl
      have hlen : (n :: cs).length ≤ u.length :=
        chain_length_le u (n :: cs) (hndn n hn)
          (keyChain_mem u (n :: cs) (some n.id) (hchain n hn))
      have hfuel1 : 1 ≤ fuel := by
        simp only [List.length_cons] at hlen
        omega
      cases fuel with
      | zero => omega
      | succ f =>
        rw [hdn, hch]
        exact forestData_buildForest_succ u f (some n.id)
    · exact ih (some n.id) (n :: cs) (hchain n hn) (hndn n hn)
        (by simp only [List.length_cons]; omega) t h

/-- **C6.** For a flat record list with unique ids, `buildTree` makes the
records with `parentId = null` the roots, attaches under every produced
tree position `t` exactly the records whose `parentId` equals `t`'s id,
and sorts every sibling group — the root list and every children list at
every depth — by `orderIdx` ascending. -/
theorem buildTree_spec (flat : List Node) (hids : (flat.map Node.id).Nodup) :
    forestData (buildTree flat) = sortByOrderIdx (flat.filter (childKey none))
    ∧ List.Sorted ordLe (forestData (buildTree flat))
    ∧ ∀ t ∈ subtreesF (buildTree flat),
        forestData t.children = sortByOrderIdx (flat.filter (childKey (some t.data.id)))
        ∧ List.Sorted ordLe (forestData t.children) := by
  have hd : dedupeByIdAll flat = flat := dedupeByIdAll_eq_self flat hids
  refine ⟨?_, ?_, ?_⟩
  · rw [buildTree_def, hd]
    exact forestData_buildForest_succ flat flat.length none
  · rw [buildTree_def, hd]
    exact sorted_forestData_buildForest flat (flat.length + 1) none
  · intro t ht
    rw [buildTree_def, hd] at ht
    refine ⟨?_, ?_⟩
    · exact children_complete flat hids (flat.length + 1) none [] rfl (by simp)
        (by omega) t ht
    · exact sorted_subtree_children flat (flat.length + 1) none t ht

/-- Witness for C6 at a concrete flat list: a root (id 1) and its child
(id 2). -/
theorem buildTree_spec_witness :
    (([⟨1, none, 1, 0, none, 0⟩, ⟨2, some 1, 0, 1, none, 0⟩] : List Node).map Node.id).Nodup
    ∧ (forestData (buildTree [⟨1, none, 1, 0, none, 0⟩, ⟨2, some 1, 0, 1, none, 0⟩])
          = sortByOrderIdx (([⟨1, none, 1, 0, none, 0⟩, ⟨2, some 1, 0, 1, none, 0⟩] : List Node).filter (childKey none))
        ∧ List.Sorted ordLe (forestData (buildTree [⟨1, none, 1, 0, none, 0⟩, ⟨2, some 1, 0, 1, none, 0⟩]))
        ∧ ∀ t ∈ subtreesF (buildTree [⟨1, none, 1, 0, none, 0⟩, ⟨2, some 1, 0, 1, none, 0⟩]),
            forestData t.children
              = sortByOrderIdx (([⟨1, none, 1, 0, none, 0⟩, ⟨2, some 1, 0, 1, none, 0⟩] : List Node).filter (childKey (some t.data.id)))
            ∧ List.Sorted ordLe (forestData t.children)) :=
  ⟨by decide,
    buildTree_spec [⟨1, none, 1, 0, none, 0⟩, ⟨2, some 1, 0, 1, none, 0⟩] (by decide)⟩

/-! ## Optimistic local move (`TreeUtils.moveNodeLocally`, tree-utils lines 124-178) -/

/-- `{ ...nodeToMove, parentId: node.id }`: copy the node value (children
included) with a new `parentId`. -/
def setParentOfTree (t : TreeNode) (p : Option Nat) : TreeNode :=
  match t with
  | .mk d c => .mk { d with parentId := p } c

/-- The `removeNode` reducer (lines 128-141): drop the matching node
(recording it in the threaded `nodeToMove` state, a later match
overwriting an earlier one), recurse into children only for unmatched
nodes that have any. -/
def removeNode (nodeId : Nat) : List TreeNode → Option TreeNode → (List TreeNode × Option TreeNode)
  | [], st => ([], st)
  | .mk d c :: ts, st =>
    if d.id = nodeId then removeNode nodeId ts (some (.mk d c))
    else if c.length > 0 then
      let r1 := removeNode nodeId c st
      let r2 := removeNode nodeId ts r1.2
      (.mk d r1.1 :: r2.1, r2.2)
    else
      let r := removeNode nodeId ts st
      (.mk d c :: r.1, r.2)

/-- The `insertNode` mapper used for `position.type === 'inside'` (lines
146-161): append the moved node (with its `parentId` rewritten) to the
target's children; recurse into children of non-matching nodes. -/
def insertNodeInside (targetId : Nat) (moved : TreeNode) : List TreeNode → List TreeNode
  | [] => []
  | .mk d c :: ts =>
    if d.id = targetId then
      .mk d (c ++ [setParentOfTree moved (some d.id)]) :: insertNodeInside targetId moved ts
    else if c.length > 0 then
      .mk d (insertNodeInside targetId moved c) :: insertNodeInside targetId moved ts
    else
      .mk d c :: insertNodeInside targetId moved ts

/-- The `insertSibling` helper for `above`/`below` (lines 166-175):
`findIndex` over the current level; on a hit, splice the moved node (with
the target's `parentId`) before or after the target; otherwise map the
recursion over every node's children. -/
def insertSibling (targetId : Nat) (moved : TreeNode) (posType : String) : List TreeNode → List TreeNode
  | [] => []
  | t :: ts =>
    if (t :: ts).any (fun x => decide (x.data.id = targetId)) then
      let pre := (t :: ts).takeWhile (fun x => decide (x.data.id ≠ targetId))
      match (t :: ts).dropWhile (fun x => decide (x.data.id ≠ targetId)) with
      | tgt :: tail =>
        if posType = "above" then
          pre ++ setParentOfTree moved tgt.data.parentId :: tgt :: tail
        else
          pre ++ tgt :: setParentOfTree moved tgt.data.parentId :: tail
      | [] => pre
    else
      match t with
      | .mk d c => .mk d (insertSibling targetId moved posType c) :: insertSibling targetId moved posType ts

/-- `TreeUtils.moveNodeLocally` (lines 124-178). -/
def moveNodeLocally (tree : List TreeNode) (nodeId targetId : Nat) (posType : String) : List TreeNode :=
  let r := removeNode nodeId tree none
  match r.2 with
  | none => tree
  | some moved =>
    if posType = "inside" then insertNodeInside targetId moved r.1
    else insertSibling targetId moved posType r.1

def treeIds (ts : List TreeNode) : List Nat := (flattenForest ts).map Node.id

theorem removeNode_no_match (nodeId : Nat) : ∀ (ts : List TreeNode) (st : Option TreeNode),
    (∀ m ∈ flattenForest ts, m.id ≠ nodeId) → removeNode nodeId ts st = (ts, st)
  | [], st, _ => by simp [removeNode]
  | .mk d c :: ts, st, h => by
    have hd : d.id ≠ nodeId := by
      apply h
      simp [flattenForest]
    have hc : ∀ m ∈ flattenForest c, m.id ≠ nodeId := by
      intro m hm
      apply h
      simp only [flattenForest, List.mem_cons]
      exact Or.inr (List.mem_append.mpr (Or.inl hm))
    have hts : ∀ m ∈ flattenForest ts, m.id ≠ nodeId := by
      intro m hm
      apply h
      simp only [flattenForest, List.mem_cons]
      exact Or.inr (List.mem_append.mpr (Or.inr hm))
    simp only [removeNode]
    rw [if_neg hd]
    by_cases hlen : c.length > 0
    · rw [if_pos hlen]
      simp [removeNode_no_match nodeId c st hc, removeNode_no_match nodeId ts st hts]
    · rw [if_neg hlen]
      simp [removeNode_no_match nodeId ts st hts]

/-- **C9.** When the node to move does not occur anywhere in the tree, the
local move is a no-op: the original tree is returned unchanged, whatever the
target and relation are. -/
theorem moveNodeLocally_not_found (tree : List TreeNode) (nodeId targetId : Nat)
    (posType : String) (h : nodeId ∉ treeIds tree) :
    moveNodeLocally tree nodeId targetId posType = tree := by
  have hno : ∀ m ∈ flattenForest tree, m.id ≠ nodeId := by
    intro m hm he
    exact h (List.mem_map.mpr ⟨m, hm, he⟩)
  unfold moveNodeLocally
  rw [removeNode_no_match nodeId tree none hno]


theorem removeNode_found (nodeId : Nat) : ∀ (ts : List TreeNode) (st : Option TreeNode),
    ((flattenForest ts).map Node.id).Nodup →
    nodeId ∈ (flattenForest ts).map Node.id →
    ∃ moved, (removeNode nodeId ts st).2 = some moved
      ∧ moved.data.id = nodeId
      ∧ List.Perm (flattenForest (removeNode nodeId ts st).1 ++ flattenForest [moved])
          (flattenForest ts)
  | [], st, _, hmem => by
    simp [flattenForest] at hmem
  | .mk d c :: ts, st, hnd, hmem => by
    have hfl : flattenForest (TreeNode.mk d c :: ts)
        = d :: (flattenForest c ++ flattenForest ts) := by
      simp [flattenForest]
    rw [hfl] at hnd hmem
    rw [List.map_cons, List.map_append] at hnd hmem
    have hnd' := List.nodup_cons.mp hnd
    have happ := List.nodup_append.mp hnd'.2
    by_cases hd : d.id = nodeId
    · have hrest : ∀ m ∈ flattenForest ts, m.id ≠ nodeId := by
        intro m hm he
        exact hnd'.1 (List.mem_append.mpr (Or.inr
          (List.mem_map.mpr ⟨m, hm, he.trans hd.symm⟩)))
      refine ⟨TreeNode.mk d c, ?_, hd, ?_⟩
      · simp only [removeNode]
        rw [if_pos hd]
        rw [removeNode_no_match nodeId ts (some (TreeNode.mk d c)) hrest]
      · simp only [removeNode]
        rw [if_pos hd]
        rw [removeNode_no_match nodeId ts (some (TreeNode.mk d c)) hrest]
        have hfm : flattenForest [TreeNode.mk d c] = d :: flattenForest c := by
          simp [flattenForest]
        rw [hfm, hfl]
        exact List.perm_append_comm
    · have hmem' : nodeId ∈ (flattenForest c).map Node.id
          ∨ nodeId ∈ (flattenForest ts).map Node.id := by
        rcases List.mem_cons.mp hmem with h | h
        · exact absurd h.symm hd
        · exact List.mem_append.mp h
      rcases hmem' with hin | hin
      · have hclen : c.length > 0 := by
          rcases List.mem_map.mp hin with ⟨m, hm, _⟩
          cases c with
          | nil => simp [flattenForest] at hm
          | cons x xs => simp
        have hrest : ∀ m ∈ flattenForest ts, m.id ≠ nodeId := by
          intro m hm he
          exact happ.2.2 hin (List.mem_map.mpr ⟨m, hm, he⟩)
        rcases removeNode_found nodeId c st happ.1 hin with ⟨moved, h2, hid, hperm⟩
        refine ⟨moved, ?_, hid, ?_⟩
        · simp only [removeNode]
          rw [if_neg hd, if_pos hclen]
          rw [removeNode_no_match nodeId ts (removeNode nodeId c st).2 hrest]
          exact h2
        · simp only [removeNode]
          rw [if_neg hd, if_pos hclen]
          rw [removeNode_no_match nodeId ts (removeNode nodeId c st).2 hrest]
          have hflr : flattenForest (TreeNode.mk d (removeNode nodeId c st).1 :: ts)
              = d :: (flattenForest (removeNode nodeId c st).1 ++ flattenForest ts) := by
            simp [flattenForest]
          rw [hflr, hfl]
          refine List.Perm.cons d ?_
          simp only [List.append_eq]
          rw [List.append_assoc]
          refine List.Perm.trans (List.Perm.append_left _ List.perm_append_comm) ?_
          rw [← List.append_assoc]
          exact List.Perm.append_right _ hperm
      · have hcempty : ∀ m ∈ flattenForest c, m.id ≠ nodeId := by
          intro m hm he
          exact happ.2.2 (List.mem_map.mpr ⟨m, hm, he⟩) hin
        rcases removeNode_found nodeId ts st happ.2.1 hin with ⟨moved, h2, hid, hperm⟩
        by_cases hclen : c.length > 0
        · have hc1 : removeNode nodeId c st = (c, st) :=
            removeNode_no_match nodeId c st hcempty
          refine ⟨moved, ?_, hid, ?_⟩
          · simp only [removeNode]
            rw [if_neg hd, if_pos hclen, hc1]
            exact h2
          · simp only [removeNode]
            rw [if_neg hd, if_pos hclen, hc1]
            have hflr : flattenForest (TreeNode.mk d c :: (removeNode nodeId ts st).1)
                = d :: (flattenForest c ++ flattenForest (removeNode nodeId ts st).1) := by
              simp [flattenForest]
            rw [hflr, hfl]
            refine List.Perm.cons d ?_
            simp only [List.append_eq]
            rw [List.append_assoc]
            exact List.Perm.append_left _ hperm
        · refine ⟨moved, ?_, hid, ?_⟩
          · simp only [removeNode]
            rw [if_neg hd, if_neg hclen]
            exact h2
          · simp only [removeNode]
            rw [if_neg hd, if_neg hclen]
            have hflr : flattenForest (TreeNode.mk d c :: (removeNode nodeId ts st).1)
                = d :: (flattenForest c ++ flattenForest (removeNode nodeId ts st).1) := by
              simp [flattenForest]
            rw [hflr, hfl]
            refine List.Perm.cons d ?_
            simp only [List.append_eq]
            rw [List.append_assoc]
            exact List.Perm.append_left _ hperm

theorem insertNodeInside_no_target (targetId : Nat) (moved : TreeNode) :
    ∀ ts : List TreeNode, (∀ m ∈ flattenForest ts, m.id ≠ targetId) →
    insertNodeInside targetId moved ts = ts
  | [], _ => by simp [insertNodeInside]
  | .mk d c :: ts, h => by
    have hfl : flattenForest (TreeNode.mk d c :: ts)
        = d :: (flattenForest c ++ flattenForest ts) := by
      simp [flattenForest]
    rw [hfl] at h
    have hd : d.id ≠ targetId := h d (List.mem_cons_self _ _)
    have hc : ∀ m ∈ flattenForest c, m.id ≠ targetId := fun m hm =>
      h m (List.mem_cons_of_mem _ (List.mem_append.mpr (Or.inl hm)))
    have hts : ∀ m ∈ flattenForest ts, m.id ≠ targetId := fun m hm =>
      h m (List.mem_cons_of_mem _ (List.mem_append.mpr (Or.inr hm)))
    simp only [insertNodeInside]
    rw [if_neg hd]
    by_cases hclen : c.length > 0
    · rw [if_pos hclen, insertNodeInside_no_target targetId moved c hc,
        insertNodeInside_no_target targetId moved ts hts]
    · rw [if_neg hclen, insertNodeInside_no_target targetId moved ts hts]

theorem insertSibling_no_target (targetId : Nat) (moved : TreeNode) (posType : String) :
    ∀ ts : List TreeNode, (∀ m ∈ flattenForest ts, m.id ≠ targetId) →
    insertSibling targetId moved posType ts = ts
  | [], _ => by simp [insertSibling]
  | .mk d c :: ts, h => by
    have hfl : flattenForest (TreeNode.mk d c :: ts)
        = d :: (flattenForest c ++ flattenForest ts) := by
      simp [flattenForest]
    rw [hfl] at h
    have hc : ∀ m ∈ flattenForest c, m.id ≠ targetId := fun m hm =>
      h m (List.mem_cons_of_mem _ (List.mem_append.mpr (Or.inl hm)))
    have hts : ∀ m ∈ flattenForest ts, m.id ≠ targetId := fun m hm =>
      h m (List.mem_cons_of_mem _ (List.mem_append.mpr (Or.inr hm)))
    have hany : ¬ (TreeNode.mk d c :: ts).any (fun x => decide (x.data.id = targetId)) = true := by
      intro hx
      rcases List.any_eq_true.mp hx with ⟨x, hxm, hxid⟩
      have hxd : x.data ∈ flattenForest (TreeNode.mk d c :: ts) :=
        subtree_data_mem _ x (mem_subtreesF_of_mem _ x hxm)
      rw [hfl] at hxd
      exact h x.data hxd (of_decide_eq_true hxid)
    simp only [insertSibling]
    rw [if_neg hany]
    rw [insertSibling_no_target targetId moved posType c hc,
      insertSibling_no_target targetId moved posType ts hts]

/-- **C10.** When the node to move is present but the target is absent from
the tree that remains after the removal pass (target nonexistent, or target
inside the moved node's own subtree), `moveNodeLocally` returns exactly that
remainder: the moved node's whole subtree is silently dropped (its ids — a
block that together with the remainder's ids is a permutation of the
original ids — no longer occur, in particular `nodeId` itself is gone). -/
theorem moveNodeLocally_drops_subtree (tree : List TreeNode) (nodeId targetId : Nat)
    (posType : String)
    (hnd : (treeIds tree).Nodup)
    (hmem : nodeId ∈ treeIds tree)
    (htgt : targetId ∉ treeIds (removeNode nodeId tree none).1) :
    moveNodeLocally tree nodeId targetId posType = (removeNode nodeId tree none).1
    ∧ nodeId ∉ treeIds (moveNodeLocally tree nodeId targetId posType)
    ∧ ∃ moved, (removeNode nodeId tree none).2 = some moved
        ∧ moved.data.id = nodeId
        ∧ List.Perm (treeIds (removeNode nodeId tree none).1 ++ treeIds [moved])
            (treeIds tree) := by
  simp only [treeIds] at hnd hmem htgt
  rcases removeNode_found nodeId tree none hnd hmem with ⟨moved, h2, hid, hperm⟩
  have hno_tgt : ∀ m ∈ flattenForest (removeNode nodeId tree none).1, m.id ≠ targetId := by
    intro m hm he
    exact htgt (List.mem_map.mpr ⟨m, hm, he⟩)
  have heq : moveNodeLocally tree nodeId targetId posType = (removeNode nodeId tree none).1 := by
    have hdef : moveNodeLocally tree nodeId targetId posType
        = match (removeNode nodeId tree none).2 with
          | none => tree
          | some moved => if posType = "inside"
              then insertNodeInside targetId moved (removeNode nodeId tree none).1
              else insertSibling targetId moved posType (removeNode nodeId tree none).1 := rfl
    rw [hdef, h2]
    show (if posType = "inside"
        then insertNodeInside targetId moved (removeNode nodeId tree none).1
        else insertSibling targetId moved posType (removeNode nodeId tree none).1)
      = (removeNode nodeId tree none).1
    by_cases hpt : posType = "inside"
    · rw [if_pos hpt]
      exact insertNodeInside_no_target targetId moved _ hno_tgt
    · rw [if_neg hpt]
      exact insertSibling_no_target targetId moved posType _ hno_tgt
  have hidsperm : List.Perm
      ((flattenForest (removeNode nodeId tree none).1).map Node.id
        ++ (flattenForest [moved]).map Node.id)
      ((flattenForest tree).map Node.id) := by
    have := hperm.map Node.id
    rwa [List.map_append] at this
  have hnd2 : ((flattenForest (removeNode nodeId tree none).1).map Node.id
      ++ (flattenForest [moved]).map Node.id).Nodup :=
    (hidsperm.nodup_iff).mpr hnd
  have hdisj := (List.nodup_append.mp hnd2).2.2
  have hmoved_mem : nodeId ∈ (flattenForest [moved]).map Node.id := by
    rcases moved with ⟨md, mc⟩
    have hdm : md ∈ flattenForest [TreeNode.mk md mc] := by
      simp [flattenForest]
    exact List.mem_map.mpr ⟨md, hdm, hid⟩
  refine ⟨heq, ?_, moved, h2, hid, by simpa [treeIds] using hidsperm⟩
  rw [heq]
  simp only [treeIds]
  intro hcontra
  exact hdisj hcontra hmoved_mem

theorem moveNodeLocally_drops_subtree_witness :
    ((treeIds [TreeNode.mk ⟨1, none, 0, 0, none, 0⟩
        [TreeNode.mk ⟨2, some 1, 0, 1, none, 0⟩ []]]).Nodup
      ∧ 1 ∈ treeIds [TreeNode.mk ⟨1, none, 0, 0, none, 0⟩
        [TreeNode.mk ⟨2, some 1, 0, 1, none, 0⟩ []]]
      ∧ 2 ∉ treeIds (removeNode 1 [TreeNode.mk ⟨1, none, 0, 0, none, 0⟩
        [TreeNode.mk ⟨2, some 1, 0, 1, none, 0⟩ []]] none).1)
    ∧ (moveNodeLocally [TreeNode.mk ⟨1, none, 0, 0, none, 0⟩
        [TreeNode.mk ⟨2, some 1, 0, 1, none, 0⟩ []]] 1 2 "inside"
      = (removeNode 1 [TreeNode.mk ⟨1, none, 0, 0, none, 0⟩
        [TreeNode.mk ⟨2, some 1, 0, 1, none, 0⟩ []]] none).1
    ∧ 1 ∉ treeIds (moveNodeLocally [TreeNode.mk ⟨1, none, 0, 0, none, 0⟩
        [TreeNode.mk ⟨2, some 1, 0, 1, none, 0⟩ []]] 1 2 "inside")
    ∧ ∃ moved, (removeNode 1 [TreeNode.mk ⟨1, none, 0, 0, none, 0⟩
        [TreeNode.mk ⟨2, some 1, 0, 1, none, 0⟩ []]] none).2 = some moved
        ∧ moved.data.id = 1
        ∧ List.Perm (treeIds (removeNode 1 [TreeNode.mk ⟨1, none, 0, 0, none, 0⟩
            [TreeNode.mk ⟨2, some 1, 0, 1, none, 0⟩ []]] none).1 ++ treeIds [moved])
            (treeIds [TreeNode.mk ⟨1, none, 0, 0, none, 0⟩
              [TreeNode.mk ⟨2, some 1, 0, 1, none, 0⟩ []]])) := by
  have h1 : (treeIds [TreeNode.mk ⟨1, none, 0, 0, none, 0⟩
      [TreeNode.mk ⟨2, some 1, 0, 1, none, 0⟩ []]]).Nodup := by
    simp [treeIds, flattenForest]
  have h2 : 1 ∈ treeIds [TreeNode.mk ⟨1, none, 0, 0, none, 0⟩
      [TreeNode.mk ⟨2, some 1, 0, 1, none, 0⟩ []]] := by
    simp [treeIds, flattenForest]
  have h3 : 2 ∉ treeIds (removeNode 1 [TreeNode.mk ⟨1, none, 0, 0, none, 0⟩
      [TreeNode.mk ⟨2, some 1, 0, 1, none, 0⟩ []]] none).1 := by
    simp [treeIds, removeNode, flattenForest]
  exact ⟨⟨h1, h2, h3⟩, moveNodeLocally_drops_subtree _ 1 2 "inside" h1 h2 h3⟩

theorem moveNodeLocally_not_found_witness :
    (7 ∉ treeIds [TreeNode.mk ⟨1, none, 0, 0, none, 0⟩ []])
    ∧ moveNodeLocally [TreeNode.mk ⟨1, none, 0, 0, none, 0⟩ []] 7 1 "inside"
      = [TreeNode.mk ⟨1, none, 0, 0, none, 0⟩ []] := by
  have h : (7 : Nat) ∉ treeIds [TreeNode.mk ⟨1, none, 0, 0, none, 0⟩ []] := by
    simp [treeIds, flattenForest]
  exact ⟨h, moveNodeLocally_not_found _ 7 1 "inside" h⟩
